import Mathlib

/-!
# Template substitution: `substitute.go`

A shallow embedding of the Go program `substitute.go` and of the library
calls it makes (`bytes.Replace`, `strings.TrimSuffix`, `filepath.Join`,
`filepath.Dir`, `ioutil.ReadFile`, `os.MkdirAll`, `ioutil.WriteFile`),
followed by theorems about the embedding.

Conventions.

* A Go `[]byte` and a Go `string` are both sequences of bytes.  They are
  modelled by `Bytes := List Char`, one `Char` per byte; only equality of
  bytes is ever used.  String literals are written `"...".toList`.
* A Go `map[string]string` has no order of its own and `range` visits its
  pairs in an order chosen at run time.  A `Substitution` is the list of the
  map's pairs in the order in which one particular `range` visits them; a
  map is a list whose keys are pairwise distinct, and another iteration order
  of the same map is a permutation of that list.
* The file system is explicit state and every failing call returns an error
  value in place of `log.Fatalf`.  Which file a path name names is part of
  that state: two path names with different bytes can name one file.
-/

namespace Substitute

/-- A byte sequence: a Go `[]byte` or a Go `string`. -/
abbrev Bytes := List Char

/-! ## The library calls on byte sequences -/

/-- Go `bytes.HasPrefix(s, p)`: `s` begins with `p`. -/
def HasPrefix : Bytes → Bytes → Bool
  | _, [] => true
  | [], _ :: _ => false
  | a :: s, b :: p => a == b && HasPrefix s p

/-- Go `bytes.Index(s, sep)`: the index of the first instance of `sep` in
`s`; `none` stands for Go's `-1`. -/
def Index : Bytes → Bytes → Option Nat
  | [], sep => if sep.isEmpty then some 0 else none
  | c :: s, sep =>
    if HasPrefix (c :: s) sep then some 0 else (Index s sep).map (· + 1)

/-- The loop of Go `bytes.Count` for a non-empty separator:
`for { i := Index(s, sep); if i == -1 { return n }; n++; s = s[i+len(sep):] }`.
The first argument bounds the number of iterations; `s.length` iterations
always suffice (`countLoop_fuel`). -/
def countLoop (sep : Bytes) : Nat → Bytes → Nat
  | 0, _ => 0
  | fuel + 1, s =>
    match Index s sep with
    | none => 0
    | some i => countLoop sep fuel (s.drop (i + sep.length)) + 1

/-- The width that Go `utf8.DecodeRune(p)` returns: the number of bytes of
the UTF-8 encoding that `p` begins with, `1` for a byte that begins no valid
encoding, `0` for the empty sequence.  The value of a byte is `Char.toNat`. -/
def decodeRuneWidth (p : Bytes) : Nat :=
  match p with
  | [] => 0
  | p0 :: rest =>
    let b := p0.toNat
    -- ASCII, or a byte that cannot begin an encoding
    if b < 0xC2 ∨ 0xF4 < b then 1
    else
      let sz := if b < 0xE0 then 2 else if b < 0xF0 then 3 else 4
      -- the range accepted for the second byte
      let lo := if b = 0xE0 then 0xA0 else if b = 0xF0 then 0x90 else 0x80
      let hi := if b = 0xED then 0x9F else if b = 0xF4 then 0x8F else 0xBF
      if rest.length + 1 < sz then 1
      else
        match rest with
        | [] => 1
        | b1 :: rest1 =>
          if b1.toNat < lo ∨ hi < b1.toNat then 1
          else if sz ≤ 2 then 2
          else
            match rest1 with
            | [] => 1
            | b2 :: rest2 =>
              if b2.toNat < 0x80 ∨ 0xBF < b2.toNat then 1
              else if sz ≤ 3 then 3
              else
                match rest2 with
                | [] => 1
                | b3 :: _ => if b3.toNat < 0x80 ∨ 0xBF < b3.toNat then 1 else 4

/-- The loop of Go `utf8.RuneCount`: one code point for each encoding and
for each byte that begins no valid encoding.  The first argument bounds the
number of iterations; every iteration reads at least one byte. -/
def runeCountLoop : Nat → Bytes → Nat
  | 0, _ => 0
  | fuel + 1, p =>
    if p.isEmpty then 0 else runeCountLoop fuel (p.drop (decodeRuneWidth p)) + 1

/-- Go `utf8.RuneCount(p)`: the number of UTF-8 code points in `p`. -/
def RuneCount (p : Bytes) : Nat :=
  runeCountLoop p.length p

/-- Go `bytes.Count(s, sep)`: the number of non-overlapping instances of
`sep` in `s`; for an empty `sep`, `utf8.RuneCount(s) + 1`.  For a one-byte
`sep` Go counts the bytes equal to it, the number the loop returns as well. -/
def Count (s sep : Bytes) : Nat :=
  if sep.isEmpty then RuneCount s + 1 else countLoop sep s.length s

/-- The replacement loop of Go `bytes.Replace`, on the unread rest
`s[start:]` of the input:
`for i := 0; i < n; i++ { j := start + Index(s[start:], old);
  copy s[start:j]; copy new; start = j + len(old) }; copy s[start:]`.
`first` is Go's `i == 0`.  For an empty `old` Go advances by one UTF-8 code
point after the first iteration, `j += wid` for the width `wid` of
`utf8.DecodeRune(s[start:])`.  `Index` cannot fail within the first
`Count s old` iterations; in that case Go would index with `-1`, the model
returns the rest unchanged. -/
def replaceLoop (old new : Bytes) : Nat → Bool → Bytes → Bytes
  | 0, _, rest => rest
  | n + 1, first, rest =>
    if old.isEmpty then
      let j := if first then 0 else decodeRuneWidth rest
      rest.take j ++ new ++ replaceLoop old new n false (rest.drop j)
    else
      match Index rest old with
      | some j =>
        rest.take j ++ new ++ replaceLoop old new n false (rest.drop (j + old.length))
      | none => rest

/-- Go `bytes.Replace(s, old, new, n)`: a copy of `s` with the first `n`
non-overlapping instances of `old` replaced by `new`; no limit when `n < 0`. -/
def Replace (s old new : Bytes) (n : Int) : Bytes :=
  let m := if n != 0 then Count s old else 0
  if m = 0 then s
  else
    let k := if n < 0 ∨ (m : Int) < n then m else n.toNat
    replaceLoop old new k true s

/-! ## `substitute.go`: the substitution engine -/

/-- `bytesReplace` of `substitute.go`:
`return bytes.Replace(data, old, new, -1)`. -/
def bytesReplace (data old new : Bytes) : Bytes :=
  Replace data old new (-1)

/-- The placeholder built in `applySubstitutions`: `"{{ " + key + " }}"`. -/
def placeholder (key : Bytes) : Bytes :=
  "\x7b\x7b ".toList ++ key ++ " \x7d\x7d".toList

/-- `type Substitution map[string]string`, as the list of its pairs in the
order in which `range` visits them. -/
abbrev Substitution := List (Bytes × Bytes)

/-- `applySubstitutions` of `substitute.go`:
`outputData := templateData; for key, value := range substitutions {
  outputData = bytesReplace(outputData, []byte("{{ " + key + " }}"), []byte(value)) };
return outputData`. -/
def applySubstitutions (templateData : Bytes) (substitutions : Substitution) : Bytes :=
  substitutions.foldl
    (fun outputData kv => bytesReplace outputData (placeholder kv.1) kv.2) templateData

/-! ## The library calls on names and paths (Unix) -/

/-- Go `strings.HasSuffix(s, suffix)`:
`len(s) >= len(suffix) && s[len(s)-len(suffix):] == suffix`. -/
def HasSuffix (s suffix : Bytes) : Bool :=
  decide (suffix.length ≤ s.length) && (s.drop (s.length - suffix.length) == suffix)

/-- Go `strings.TrimSuffix(s, suffix)`:
`if HasSuffix(s, suffix) { return s[:len(s)-len(suffix)] }; return s`. -/
def TrimSuffix (s suffix : Bytes) : Bytes :=
  if HasSuffix s suffix then s.take (s.length - suffix.length) else s

/-- Go `strings.Join(elems, sep)`: the elements with `sep` between each two. -/
def stringsJoin (sep : Bytes) : List Bytes → Bytes
  | [] => []
  | [e] => e
  | e :: f :: es => e ++ sep ++ stringsJoin sep (f :: es)

/-- The backtracking of `filepath.Clean` at a `..` element, after `out.w--`:
`for out.w > dotdot && !os.IsPathSeparator(out.index(out.w)) { out.w-- }`;
the result is the new `out.w`. -/
def backtrack (buf : Bytes) (dotdot : Nat) : Nat → Nat
  | 0 => 0
  | w + 1 =>
    if dotdot < w + 1 ∧ buf[w + 1]? ≠ some '/' then backtrack buf dotdot w else w + 1

/-- The main loop of Go `filepath.Clean` (Unix): `path` is the unread rest
`path[r:]`, `out` the bytes written so far (`out.w` is `out.length`),
`dotdot` the index where `..` must stop.  The first argument bounds the
number of iterations; every iteration reads at least one byte, so the length
of the path suffices (`cleanLoop_fuel`). -/
def cleanLoop (rooted : Bool) : Nat → Bytes → Bytes → Nat → Bytes
  | 0, _, out, _ => out
  | fuel + 1, path, out, dotdot =>
    match path with
    | [] => out
    | c :: rest =>
      if c = '/' then
        -- empty path element
        cleanLoop rooted fuel rest out dotdot
      else if c = '.' ∧ (rest = [] ∨ rest.head? = some '/') then
        -- . element
        cleanLoop rooted fuel rest out dotdot
      else if c = '.' ∧ rest.head? = some '.'
          ∧ (rest.tail = [] ∨ rest.tail.head? = some '/') then
        -- .. element: remove to last separator
        if dotdot < out.length then
          -- can backtrack
          cleanLoop rooted fuel rest.tail
            (out.take (backtrack out dotdot (out.length - 1))) dotdot
        else if rooted = false then
          -- cannot backtrack, but not rooted, so append .. element
          let out1 := (if 0 < out.length then out ++ ['/'] else out) ++ ['.', '.']
          cleanLoop rooted fuel rest.tail out1 out1.length
        else
          cleanLoop rooted fuel rest.tail out dotdot
      else
        -- real path element: add slash if needed, copy element
        let out1 :=
          if (rooted = true ∧ out.length ≠ 1) ∨ (rooted = false ∧ out.length ≠ 0)
          then out ++ ['/'] else out
        cleanLoop rooted fuel ((c :: rest).dropWhile (· ≠ '/'))
          (out1 ++ (c :: rest).takeWhile (· ≠ '/')) dotdot

/-- Go `filepath.Clean(path)` on Unix (no volume name, separator `/`):
the shortest path name equivalent to `path` by purely lexical processing. -/
def Clean (path : Bytes) : Bytes :=
  if path = [] then ['.']
  else
    let rooted : Bool := path.head? = some '/'
    let out :=
      if rooted then cleanLoop rooted path.length path.tail ['/'] 1
      else cleanLoop rooted path.length path [] 0
    -- Turn empty string into "."
    if out = [] then ['.'] else out

/-- Go `filepath.Join(elem...)` on Unix:
`for i, e := range elem { if e != "" { return Clean(strings.Join(elem[i:], "/")) } };
return ""`. -/
def Join : List Bytes → Bytes
  | [] => []
  | e :: rest => if e ≠ [] then Clean (stringsJoin ['/'] (e :: rest)) else Join rest

/-- Go `filepath.Dir(path)` on Unix: all but the last element of `path`,
`Clean(path[:i+1])` for the index `i` of the last separator. -/
def Dir (path : Bytes) : Bytes :=
  Clean (path.reverse.dropWhile (· ≠ '/')).reverse

/-! ## The elements of a path -/

/-- The elements of a path: the byte sequences between its separators. -/
def elements : Bytes → List Bytes
  | [] => [[]]
  | c :: s =>
    if c = '/' then [] :: elements s
    else
      match elements s with
      | [] => [[c]]
      | e :: es => (c :: e) :: es

/-- A cleaned path seen as elements: the number of leading `..` elements and
the names after them, in order. -/
structure Stack where
  /-- The number of leading `..` elements. -/
  ups : Nat
  /-- The names after the leading `..` elements. -/
  names : List Bytes
  deriving DecidableEq

/-- The effect of one element on a cleaned path: an empty element and `.`
change nothing, `..` removes the last name, or is kept in front when there
is no name and the path is not rooted, and a name is added at the end. -/
def Stack.push (rooted : Bool) (st : Stack) (e : Bytes) : Stack :=
  if e = [] ∨ e = ['.'] then st
  else if e = ['.', '.'] then
    if st.names ≠ [] then ⟨st.ups, st.names.dropLast⟩
    else if rooted = true then st
    else ⟨st.ups + 1, []⟩
  else ⟨st.ups, st.names ++ [e]⟩

/-- The elements of a cleaned path. -/
def Stack.elems (st : Stack) : List Bytes :=
  List.replicate st.ups ['.', '.'] ++ st.names

/-- The bytes of a cleaned path, before an empty result is turned into `.`. -/
def Stack.render (rooted : Bool) (st : Stack) : Bytes :=
  (if rooted = true then ['/'] else []) ++ stringsJoin ['/'] st.elems

/-- The index where `..` must stop in the bytes of a cleaned path: after the
leading slash or after the leading `..` elements. -/
def Stack.dotdot (rooted : Bool) (st : Stack) : Nat :=
  (Stack.render rooted ⟨st.ups, []⟩).length

/-- A name: a path element that is not empty, contains no separator and is
neither `.` nor `..`. -/
def isName (e : Bytes) : Prop :=
  e ≠ [] ∧ '/' ∉ e ∧ e ≠ ['.'] ∧ e ≠ ['.', '.']

/-- The cleaned paths that `filepath.Clean` builds: a rooted path has no
leading `..`, and every name is a name. -/
def Stack.Valid (rooted : Bool) (st : Stack) : Prop :=
  (rooted = true → st.ups = 0) ∧ ∀ e ∈ st.names, isName e

/-- The cleaned path of a path, element by element. -/
def normalize (rooted : Bool) (path : Bytes) : Stack :=
  (elements path).foldl (Stack.push rooted) ⟨0, []⟩

/-- An empty result of the main loop of `filepath.Clean` is turned into `.`. -/
def orDot (out : Bytes) : Bytes :=
  if out = [] then ['.'] else out

/-! ## The file system -/

/-- The state of the file system.  Several path names can name one file
(`p/d/a` and `../root/p/d/a` in a directory named `root`, a symbolic link),
so a file is not identified with the bytes of a name: `resolve` gives the
file that a path name names, as a canonical name, and the content of the
files and the existence of the directories are kept by canonical name.
A run does not change `resolve`: the program creates directories and
regular files only, makes no link and renames nothing. -/
structure FS where
  /-- The file or directory that a path name names, as a canonical name. -/
  resolve : Bytes → Bytes
  /-- The content of the readable regular file with a canonical name, if
  there is one. -/
  files : Bytes → Option Bytes
  /-- Whether a directory with a canonical name exists. -/
  dirs : Bytes → Bool

/-- What the operating system refuses: the program does not decide whether
creating a directory or writing a file succeeds (permission denied, disk
full, a file where a directory is needed), so both are given, as functions
of the current state and the arguments of the call. -/
structure Faults where
  /-- Whether `os.MkdirAll(path, 0755)` fails in a state. -/
  mkdirAll : FS → Bytes → Bool
  /-- Whether `ioutil.WriteFile(path, data, 0644)` fails in a state. -/
  writeFile : FS → Bytes → Bytes → Bool
  /-- When `os.MkdirAll(path, 0755)` fails in a state: whether it had created
  the directory named by the third argument, `path` or a parent of it, before
  it failed. -/
  mkdirAllMade : FS → Bytes → Bytes → Bool
  /-- When `ioutil.WriteFile(path, data, 0644)` fails in a state: the content
  it left in the file (empty or partial), `none` when it left the file as it
  was. -/
  writeFileLeft : FS → Bytes → Bytes → Option Bytes

/-- The three fatal errors of the loop body, with the path concerned. -/
inductive Error where
  /-- `log.Fatalf("Failed to read template file: %v", err)`. -/
  | readTemplate (path : Bytes)
  /-- `log.Fatalf("Failed to create output directory: %v", err)`. -/
  | createDirectory (path : Bytes)
  /-- `log.Fatalf("Failed to write output file: %v", err)`. -/
  | writeOutput (path : Bytes)
  deriving DecidableEq

/-- The end of a run: the file system as the run leaves it, and the fatal
error that stopped it, if any. -/
structure Outcome where
  /-- The file system at the end of the run. -/
  fs : FS
  /-- The fatal error that stopped the run; `none` when it ran to the end. -/
  fatal : Option Error

/-- Go `ioutil.ReadFile(name)`: the content of the file that `name` names,
or `none` for an error. -/
def ReadFile (fs : FS) (name : Bytes) : Option Bytes :=
  fs.files (fs.resolve name)

/-- The names of the directories `os.MkdirAll(path)` makes sure exist:
`path` itself and every parent of it, that is the root `/` of a rooted path
and every other non-empty `q` with `q/` a prefix of `path`. -/
def madeBy (path q : Bytes) : Bool :=
  q == path
    || (!q.isEmpty && HasPrefix path (if q == ['/'] then ['/'] else q ++ ['/']))

/-- The directories after a call of `os.MkdirAll(path)`: those that existed,
and the directories named by `path` and by those parents of `path` that
`made` selects. -/
def withDirs (fs : FS) (path : Bytes) (made : Bytes → Bool) : FS :=
  { fs with dirs := fun i =>
      path.inits.any (fun q => madeBy path q && made q && fs.resolve q == i) || fs.dirs i }

/-- The files after `data` is written to the file that `name` names, under
whatever name the file is read later. -/
def withFile (fs : FS) (name data : Bytes) : FS :=
  { fs with files := fun i => if i = fs.resolve name then some data else fs.files i }

/-- Go `os.MkdirAll(path, 0755)`: creates the directory and any necessary
parents; directories that exist already are no error.  `none` for an error;
the state that a failed call leaves is `MkdirAllFailed`. -/
def MkdirAll (os : Faults) (fs : FS) (path : Bytes) : Option FS :=
  if os.mkdirAll fs path then none
  else some (withDirs fs path (fun _ => true))

/-- The state that a failed `os.MkdirAll(path, 0755)` leaves: the parents it
had created before it failed stay. -/
def MkdirAllFailed (os : Faults) (fs : FS) (path : Bytes) : FS :=
  withDirs fs path (os.mkdirAllMade fs path)

/-- Go `ioutil.WriteFile(name, data, 0644)`: writes `data` to the file that
`name` names, creating it or replacing its content.  `none` for an error;
the state that a failed call leaves is `WriteFileFailed`. -/
def WriteFile (os : Faults) (fs : FS) (name data : Bytes) : Option FS :=
  if os.writeFile fs name data then none
  else some (withFile fs name data)

/-- The state that a failed `ioutil.WriteFile(name, data, 0644)` leaves: the
file as it was, or created or truncated with the bytes written before the
failure. -/
def WriteFileFailed (os : Faults) (fs : FS) (name data : Bytes) : FS :=
  match os.writeFileLeft fs name data with
  | none => fs
  | some left => withFile fs name left

/-! ## `substitute.go`: the driver -/

/-- `type Project struct { Dir, Template string; Substitution Substitution }`:
one entry of a project's list. -/
structure Project where
  /-- The field `Dir` (`yaml:"dir"`). -/
  Dir : Bytes
  /-- The field `Template` (`yaml:"template"`). -/
  Template : Bytes
  /-- The field `Substitution` (`yaml:"substitution"`), in iteration order. -/
  Substitution : List (Bytes × Bytes)

/-- `templateFile := filepath.Join(*templateDir, project.Dir, project.Template)`. -/
def templateFile (templateDir : Bytes) (project : Project) : Bytes :=
  Join [templateDir, project.Dir, project.Template]

/-- `outputFile := filepath.Join(projectOutputDir, project.Dir,
  strings.TrimSuffix(project.Template, ".tmpl"))`. -/
def outputFile (projectOutputDir : Bytes) (project : Project) : Bytes :=
  Join [projectOutputDir, project.Dir, TrimSuffix project.Template ".tmpl".toList]

/-- The body of the inner loop of `main` for one entry: read the template,
apply the substitutions, create the directories, write the output file;
each failing call is fatal. -/
def processTemplate (os : Faults) (templateDir projectOutputDir : Bytes)
    (project : Project) (fs : FS) : Outcome :=
  match ReadFile fs (templateFile templateDir project) with
  | none => ⟨fs, some (Error.readTemplate (templateFile templateDir project))⟩
  | some templateData =>
    let outputData := applySubstitutions templateData project.Substitution
    match MkdirAll os fs (Dir (outputFile projectOutputDir project)) with
    | none =>
      ⟨MkdirAllFailed os fs (Dir (outputFile projectOutputDir project)),
        some (Error.createDirectory (Dir (outputFile projectOutputDir project)))⟩
    | some fs1 =>
      match WriteFile os fs1 (outputFile projectOutputDir project) outputData with
      | none =>
        ⟨WriteFileFailed os fs1 (outputFile projectOutputDir project) outputData,
          some (Error.writeOutput (outputFile projectOutputDir project))⟩
      | some fs2 => ⟨fs2, none⟩

/-- The inner loop of `main`, `for _, project := range projects { ... }`:
the entries of one project in declared order, stopping at the first fatal
error. -/
def processProjects (os : Faults) (templateDir projectOutputDir : Bytes) :
    List Project → FS → Outcome
  | [], fs => ⟨fs, none⟩
  | project :: rest, fs =>
    match processTemplate os templateDir projectOutputDir project fs with
    | ⟨fs1, none⟩ => processProjects os templateDir projectOutputDir rest fs1
    | ⟨fs1, some e⟩ => ⟨fs1, some e⟩

/-- The outer loop of `main` on the decoded configuration,
`for projectName, projects := range data { projectOutputDir :=
  filepath.Join(*outputDir, projectName); ... }`, the projects in the order
in which `range` visits them.  Reading the flags, reading and decoding the
substitution file and the messages on standard output are left out. -/
def main (os : Faults) (templateDir outputDir : Bytes) :
    List (Bytes × List Project) → FS → Outcome
  | [], fs => ⟨fs, none⟩
  | (projectName, projects) :: rest, fs =>
    match processProjects os templateDir (Join [outputDir, projectName]) projects fs with
    | ⟨fs1, none⟩ => main os templateDir outputDir rest fs1
    | ⟨fs1, some e⟩ => ⟨fs1, some e⟩

/-- An operating system that refuses nothing. -/
def noFaults : Faults :=
  ⟨fun _ _ => false, fun _ _ _ => false, fun _ _ _ => false, fun _ _ _ => none⟩

/-- The file system in which every path name names a file of its own, that
holds exactly the listed files (the first entry of a path counts) and no
directory. -/
def fsOf : List (Bytes × Bytes) → FS
  | [] => ⟨fun q => q, fun _ => none, fun _ => false⟩
  | (path, content) :: rest =>
    ⟨fun q => q, fun q => if q = path then some content else (fsOf rest).files q,
      fun _ => false⟩

/-- The file system `fsOf files` seen from a working directory named `root`:
a path name that begins with `../root/` names the file that the rest of the
path name names. -/
def fsInRoot (files : List (Bytes × Bytes)) : FS :=
  { fsOf files with
    resolve := fun q => if HasPrefix q "../root/".toList then q.drop 8 else q }

/-! ## The specification's resolved paths -/

/-- The specification's `stripSuffix`: one trailing `.tmpl` removed. -/
def stripSuffix (templateName : Bytes) : Bytes :=
  TrimSuffix templateName ".tmpl".toList

/-- The specification's
`templateSourcePath = join(templateRoot, relativeDir, templateName)`. -/
def templateSourcePath (templateRoot relativeDir templateName : Bytes) : Bytes :=
  Join [templateRoot, relativeDir, templateName]

/-- The specification's
`outputPath = join(outputRoot, projectName, relativeDir, stripSuffix(templateName))`,
one join of four components. -/
def outputPath (outputRoot projectName relativeDir templateName : Bytes) : Bytes :=
  Join [outputRoot, projectName, relativeDir, stripSuffix templateName]

/-! ## The specification's reading of a single replacement -/

/-- The specification's left-to-right scan: at each position of the text,
when the token begins there, emit the value and skip the token's bytes
(the first argument counts the bytes of a matched token still to skip);
otherwise copy the byte. -/
def scanReplace (token value : Bytes) : Nat → Bytes → Bytes
  | _, [] => []
  | skip + 1, _ :: s => scanReplace token value skip s
  | 0, c :: s =>
    if HasPrefix (c :: s) token then value ++ scanReplace token value (token.length - 1) s
    else c :: scanReplace token value 0 s

/-- The specification's split: the pieces of the text between the
non-overlapping occurrences of the token, found from left to right.  `cur`
is the piece being collected; the first argument counts the bytes of a
matched token still to skip. -/
def splitOnToken (token : Bytes) : Nat → Bytes → Bytes → List Bytes
  | _, cur, [] => [cur]
  | skip + 1, cur, _ :: s => splitOnToken token skip cur s
  | 0, cur, c :: s =>
    if HasPrefix (c :: s) token then cur :: splitOnToken token (token.length - 1) [] s
    else splitOnToken token 0 (cur ++ [c]) s

/-- The specification's join: the pieces with the value between each two. -/
def joinWith (value : Bytes) : List Bytes → Bytes
  | [] => []
  | [p] => p
  | p :: q :: ps => p ++ value ++ joinWith value (q :: ps)

/-! ## Templates made of plain text and tokens -/

/-- Whether a byte sequence contains neither `{` nor `}`. -/
def braceFree (s : Bytes) : Bool :=
  s.all (fun c => c != '{' && c != '}')

/-- A piece of a template: one byte of plain text, or the placeholder token
of a key. -/
inductive Piece where
  /-- One byte of text between the tokens. -/
  | text (c : Char)
  /-- The token `"{{ " ++ key ++ " }}"`. -/
  | token (key : Bytes)
  deriving DecidableEq

/-- The bytes of a piece. -/
def Piece.render : Piece → Bytes
  | .text c => [c]
  | .token key => placeholder key

/-- The template a list of pieces stands for. -/
def render : List Piece → Bytes
  | [] => []
  | p :: ps => p.render ++ render ps

/-- A piece is well formed when its text byte is no brace, or its key
contains no brace. -/
def Piece.wellFormed : Piece → Bool
  | .text c => c != '{' && c != '}'
  | .token key => braceFree key

/-- The value of a key in a mapping, `none` when the key is absent. -/
def lookupValue : Substitution → Bytes → Option Bytes
  | [], _ => none
  | (k, v) :: rest, key => if k = key then some v else lookupValue rest key

/-- The bytes of a piece once the mapping is substituted into it: a token
whose key is in the mapping becomes the key's value, everything else stays. -/
def Piece.substitute (m : Substitution) : Piece → Bytes
  | .text c => [c]
  | .token key =>
    match lookupValue m key with
    | some v => v
    | none => placeholder key

/-- The simultaneous substitution of a mapping into a template given by its
pieces: every token is replaced once, by the value of its key. -/
def substituteAll (m : Substitution) : List Piece → Bytes
  | [] => []
  | p :: ps => p.substitute m ++ substituteAll m ps

/-- One pass over the pieces for the pair `k ↦ v`: the tokens of `k` become
the text `v`. -/
def substituteKey (k v : Bytes) : List Piece → List Piece
  | [] => []
  | .text c :: ps => .text c :: substituteKey k v ps
  | .token key :: ps =>
    if key = k then v.map Piece.text ++ substituteKey k v ps
    else .token key :: substituteKey k v ps

/-! ## Lemmas on the library calls -/

theorem hasPrefix_iff (s p : Bytes) : HasPrefix s p = true ↔ ∃ r, s = p ++ r := by
  induction p generalizing s with
  | nil => simp [HasPrefix]
  | cons b p ih =>
    cases s with
    | nil => simp [HasPrefix]
    | cons a s =>
      simp only [HasPrefix, Bool.and_eq_true, beq_iff_eq, ih, List.cons_append, List.cons.injEq]
      constructor
      · rintro ⟨rfl, r, rfl⟩
        exact ⟨r, rfl, rfl⟩
      · rintro ⟨r, rfl, rfl⟩
        exact ⟨rfl, r, rfl⟩

theorem hasPrefix_append (p r : Bytes) : HasPrefix (p ++ r) p = true :=
  (hasPrefix_iff _ _).2 ⟨r, rfl⟩

theorem index_nil (old : Bytes) (h : old ≠ []) : Index [] old = none := by
  cases old with
  | nil => exact absurd rfl h
  | cons b p => simp [Index]

theorem index_some_le (old : Bytes) :
    ∀ (s : Bytes) (j : Nat), Index s old = some j → j + old.length ≤ s.length := by
  intro s
  induction s with
  | nil =>
    intro j h
    cases old with
    | nil => simp [Index] at h; subst h; simp
    | cons b p => simp [Index] at h
  | cons c s ih =>
    intro j h
    unfold Index at h
    split at h
    · rename_i hp
      obtain ⟨r, hr⟩ := (hasPrefix_iff _ _).1 hp
      simp only [Option.some.injEq] at h
      subst h
      rw [hr]
      simp
    · cases hi : Index s old with
      | none => simp [hi] at h
      | some i =>
        simp [hi] at h
        subst h
        have := ih i hi
        simp only [List.length_cons]
        omega

theorem scanReplace_skip (token value : Bytes) :
    ∀ (k : Nat) (s : Bytes),
      scanReplace token value k s = scanReplace token value 0 (s.drop k) := by
  intro k
  induction k with
  | zero => intro s; simp
  | succ k ih =>
    intro s
    cases s with
    | nil => simp [scanReplace]
    | cons c s => simp only [scanReplace, List.drop_succ_cons]; exact ih s

theorem scanReplace_of_index_none (old new : Bytes) :
    ∀ s : Bytes, Index s old = none → scanReplace old new 0 s = s := by
  intro s
  induction s with
  | nil => intro _; simp [scanReplace]
  | cons c s ih =>
    intro h
    unfold Index at h
    split at h
    · simp at h
    · rename_i hp
      simp only [Option.map_eq_none'] at h
      simp [scanReplace, hp, ih h]

theorem scanReplace_of_index_some (old new : Bytes) (hold : old ≠ []) :
    ∀ (s : Bytes) (j : Nat), Index s old = some j →
      scanReplace old new 0 s
        = s.take j ++ new ++ scanReplace old new 0 (s.drop (j + old.length)) := by
  intro s
  induction s with
  | nil => intro j h; simp [index_nil old hold] at h
  | cons c s ih =>
    intro j h
    have hlen : 0 < old.length := List.length_pos.2 hold
    unfold Index at h
    split at h
    · rename_i hp
      simp only [Option.some.injEq] at h
      subst h
      have e : 0 + old.length = (old.length - 1) + 1 := by omega
      simp only [scanReplace, hp, if_true, List.take_zero, List.nil_append, e,
        List.drop_succ_cons]
      rw [scanReplace_skip]
    · rename_i hp
      cases hi : Index s old with
      | none => simp [hi] at h
      | some i =>
        simp [hi] at h
        subst h
        have e : i + 1 + old.length = (i + old.length) + 1 := by omega
        simp only [scanReplace, hp, e, List.take_succ_cons, List.drop_succ_cons,
          List.cons_append, ih i hi]
        simp

theorem replaceLoop_count (old new : Bytes) (hold : old ≠ []) :
    ∀ (fuel : Nat) (s : Bytes) (b : Bool), s.length ≤ fuel →
      replaceLoop old new (countLoop old fuel s) b s = scanReplace old new 0 s := by
  intro fuel
  have hne : old.isEmpty = false := by cases old <;> simp_all
  have hlen : 0 < old.length := List.length_pos.2 hold
  induction fuel with
  | zero =>
    intro s b h
    have : s = [] := List.length_eq_zero.1 (Nat.le_zero.1 h)
    subst this
    simp [countLoop, replaceLoop, scanReplace]
  | succ fuel ih =>
    intro s b h
    cases hi : Index s old with
    | none =>
      simp only [countLoop, hi, replaceLoop]
      exact (scanReplace_of_index_none old new s hi).symm
    | some i =>
      have hle := index_some_le old s i hi
      have hd : (s.drop (i + old.length)).length ≤ fuel := by
        simp only [List.length_drop]; omega
      simp only [countLoop, hi, replaceLoop, hne, Bool.false_eq_true, if_false]
      rw [ih _ false hd, scanReplace_of_index_some old new hold s i hi]

theorem countLoop_fuel (sep : Bytes) (hsep : sep ≠ []) :
    ∀ (fuel : Nat) (s : Bytes), s.length ≤ fuel →
      countLoop sep fuel s = countLoop sep s.length s := by
  intro fuel
  have hlen : 0 < sep.length := List.length_pos.2 hsep
  induction fuel using Nat.strong_induction_on with
  | _ fuel ih =>
    intro s h
    cases fuel with
    | zero =>
      have : s = [] := List.length_eq_zero.1 (Nat.le_zero.1 h)
      subst this; rfl
    | succ fuel =>
      cases s with
      | nil => simp [countLoop, index_nil sep hsep]
      | cons c s =>
        simp only [List.length_cons] at h
        simp only [countLoop, List.length_cons]
        cases hi : Index (c :: s) sep with
        | none => rfl
        | some i =>
          have hle := index_some_le sep _ i hi
          simp only [List.length_cons] at hle
          have hd : ((c :: s).drop (i + sep.length)).length ≤ s.length := by
            simp only [List.length_drop, List.length_cons]; omega
          simp only
          rw [ih fuel (Nat.lt_succ_self _) _ (by omega),
            ih s.length (by omega) _ hd]

theorem bytesReplace_eq_scan (data old new : Bytes) (hold : old ≠ []) :
    bytesReplace data old new = scanReplace old new 0 data := by
  have hne : old.isEmpty = false := by cases old <;> simp_all
  have h := replaceLoop_count old new hold data.length data true (Nat.le_refl _)
  have hc : Count data old = countLoop old data.length data := by
    simp only [Count, hne, Bool.false_eq_true, if_false]
  have hneg : ((-1 : Int) != 0) = true := by decide
  have hlt : (-1 : Int) < 0 := by decide
  unfold bytesReplace Replace
  simp only [hneg, if_true, hc, hlt, true_or]
  by_cases hm : countLoop old data.length data = 0
  · rw [hm] at h
    simp only [replaceLoop] at h
    rw [if_pos hm]
    exact h
  · rw [if_neg hm]
    exact h

theorem placeholder_cons (key : Bytes) :
    placeholder key = '{' :: '{' :: ' ' :: (key ++ [' ', '}', '}']) := rfl

theorem placeholder_ne_nil (key : Bytes) : placeholder key ≠ [] := by
  rw [placeholder_cons]; exact List.cons_ne_nil _ _

theorem index_self (old : Bytes) (hold : old ≠ []) : Index old old = some 0 := by
  cases old with
  | nil => exact absurd rfl hold
  | cons b p =>
    have h : HasPrefix (b :: p) (b :: p) = true := by
      simpa using hasPrefix_append (b :: p) []
    simp [Index, h]

theorem bytesReplace_of_index_none (data old new : Bytes) (hold : old ≠ [])
    (h : Index data old = none) : bytesReplace data old new = data := by
  rw [bytesReplace_eq_scan data old new hold, scanReplace_of_index_none old new data h]

theorem bytesReplace_self (old new : Bytes) (hold : old ≠ []) :
    bytesReplace old old new = new := by
  rw [bytesReplace_eq_scan old old new hold,
    scanReplace_of_index_some old new hold old 0 (index_self old hold)]
  simp [scanReplace]

theorem applySubstitutions_nil (t : Bytes) : applySubstitutions t [] = t := rfl

theorem applySubstitutions_cons (t k v : Bytes) (l : Substitution) :
    applySubstitutions t ((k, v) :: l)
      = applySubstitutions (bytesReplace t (placeholder k) v) l := rfl

theorem applySubstitutions_append (t : Bytes) (l1 l2 : Substitution) :
    applySubstitutions t (l1 ++ l2) = applySubstitutions (applySubstitutions t l1) l2 := by
  simp [applySubstitutions, List.foldl_append]

theorem applySubstitutions_unchanged (t : Bytes) (l : Substitution)
    (h : ∀ p ∈ l, Index t (placeholder p.1) = none) : applySubstitutions t l = t := by
  induction l with
  | nil => rfl
  | cons p l ih =>
    obtain ⟨k, v⟩ := p
    rw [applySubstitutions_cons,
      bytesReplace_of_index_none t _ v (placeholder_ne_nil k) (h (k, v) (by simp))]
    exact ih (fun q hq => h q (List.mem_cons_of_mem _ hq))

theorem splitOnToken_ne_nil (token : Bytes) :
    ∀ (s : Bytes) (k : Nat) (cur : Bytes), splitOnToken token k cur s ≠ [] := by
  intro s
  induction s with
  | nil => intro k cur; simp [splitOnToken]
  | cons c s ih =>
    intro k cur
    cases k with
    | zero =>
      simp only [splitOnToken]
      split
      · exact List.cons_ne_nil _ _
      · exact ih 0 _
    | succ k => simp only [splitOnToken]; exact ih k cur

theorem joinWith_cons (value p : Bytes) (ps : List Bytes) (h : ps ≠ []) :
    joinWith value (p :: ps) = p ++ value ++ joinWith value ps := by
  cases ps with
  | nil => exact absurd rfl h
  | cons q qs => rfl

theorem scanReplace_eq_join (token value : Bytes) :
    ∀ (s : Bytes) (k : Nat) (cur : Bytes),
      cur ++ scanReplace token value k s = joinWith value (splitOnToken token k cur s) := by
  intro s
  induction s with
  | nil => intro k cur; simp [scanReplace, splitOnToken, joinWith]
  | cons c s ih =>
    intro k cur
    cases k with
    | succ k => simp only [scanReplace, splitOnToken]; exact ih k cur
    | zero =>
      simp only [scanReplace, splitOnToken]
      split
      · rw [joinWith_cons _ _ _ (splitOnToken_ne_nil token s _ _), ← ih]
        simp
      · rw [← ih]; simp

/-! ## The substitution engine: one key -/

/-- C1: for every template `t`, key `k` and value `v`, `applySubstitutions`
on the one-pair mapping `k ↦ v` is the left-to-right scan of `t` that
replaces every non-overlapping occurrence of the token `"{{ " ++ k ++ " }}"`
by `v` and copies every other byte unchanged, and it is the join with `v` of
the pieces obtained by splitting `t` on the token. -/
theorem applySubstitutions_single (t k v : Bytes) :
    applySubstitutions t [(k, v)] = scanReplace (placeholder k) v 0 t
    ∧ applySubstitutions t [(k, v)]
        = joinWith v (splitOnToken (placeholder k) 0 [] t) := by
  have h : applySubstitutions t [(k, v)] = scanReplace (placeholder k) v 0 t :=
    bytesReplace_eq_scan t (placeholder k) v (placeholder_ne_nil k)
  refine ⟨h, ?_⟩
  rw [h, ← scanReplace_eq_join]
  rfl

/-- C4, as stated, fails: the token of the key `b` does not occur in the
template `{{ a }}`, yet with the mapping `a ↦ {{ b }}, b ↦ X` iterated in
that order the output is `X`, and without the key `b` it is `{{ b }}`. -/
theorem unmatched_key_counterexample :
    Index "\x7b\x7b a \x7d\x7d".toList (placeholder "b".toList) = none
    ∧ applySubstitutions "\x7b\x7b a \x7d\x7d".toList
        [("a".toList, "\x7b\x7b b \x7d\x7d".toList), ("b".toList, "X".toList)]
        = "X".toList
    ∧ applySubstitutions "\x7b\x7b a \x7d\x7d".toList
        [("a".toList, "\x7b\x7b b \x7d\x7d".toList)] = "\x7b\x7b b \x7d\x7d".toList
    ∧ "X".toList ≠ "\x7b\x7b b \x7d\x7d".toList := by
  decide

/-- C4, amended: a key whose token does not occur in the text that the
pairs iterated before it have produced from the template (in the template
itself when the key comes first) changes nothing: the output is the output
of the mapping without that key, the other keys applied in the same order. -/
theorem unmatched_key_ignored (t : Bytes) (before after : Substitution) (k v : Bytes)
    (h : Index (applySubstitutions t before) (placeholder k) = none) :
    applySubstitutions t (before ++ (k, v) :: after)
      = applySubstitutions t (before ++ after) := by
  rw [applySubstitutions_append, applySubstitutions_cons,
    bytesReplace_of_index_none _ _ v (placeholder_ne_nil k) h, applySubstitutions_append]

/-- An instance of `unmatched_key_ignored`: in `<p>{{ a }}</p>` with the pairs
`a ↦ 1, b ↦ 2, c ↦ 3`, the key `b` finds no token after `a` was applied. -/
theorem unmatched_key_ignored_witness :
    Index (applySubstitutions "<p>\x7b\x7b a \x7d\x7d</p>".toList [("a".toList, "1".toList)])
        (placeholder "b".toList) = none
    ∧ applySubstitutions "<p>\x7b\x7b a \x7d\x7d</p>".toList
        ([("a".toList, "1".toList)] ++ ("b".toList, "2".toList) :: [("c".toList, "3".toList)])
      = applySubstitutions "<p>\x7b\x7b a \x7d\x7d</p>".toList
        ([("a".toList, "1".toList)] ++ [("c".toList, "3".toList)]) :=
  ⟨by decide, unmatched_key_ignored _ _ _ _ _ (by decide)⟩

/-- C8, as stated, fails: with the mapping `a ↦ {{ b }}, b ↦ X` iterated in
that order, the template `{{ a }}` gives `X`, not the value `{{ b }}` of `a`:
the text inserted for `a` is substituted again when `b` has its turn. -/
theorem value_resubstituted_counterexample :
    applySubstitutions (placeholder "a".toList)
        [("a".toList, placeholder "b".toList), ("b".toList, "X".toList)] = "X".toList
    ∧ "X".toList ≠ placeholder "b".toList := by
  decide

/-- C8, amended: for every mapping with distinct keys and every pair
`k ↦ v` of it such that the token of no other key occurs in the token of `k`
or in `v`, the template that is exactly the token of `k` gives exactly `v`,
also when `v` contains the token of `k` itself. -/
theorem value_is_literal (m : Substitution) (k v : Bytes)
    (hnd : (m.map Prod.fst).Nodup) (hk : (k, v) ∈ m)
    (hother : ∀ p ∈ m, p.1 ≠ k →
      Index (placeholder k) (placeholder p.1) = none ∧ Index v (placeholder p.1) = none) :
    applySubstitutions (placeholder k) m = v := by
  obtain ⟨l1, l2, rfl⟩ := List.append_of_mem hk
  have hnd2 : ∀ p ∈ l1 ++ l2, p.1 ≠ k := by
    intro p hp hpk
    simp only [List.map_append, List.map_cons] at hnd
    have h1 := List.nodup_middle.1 hnd
    rw [List.nodup_cons] at h1
    apply h1.1
    rw [← List.map_append, ← hpk]
    exact List.mem_map_of_mem _ hp
  rw [applySubstitutions_append, applySubstitutions_cons,
    applySubstitutions_unchanged (placeholder k) l1, bytesReplace_self _ _ (placeholder_ne_nil k),
    applySubstitutions_unchanged v l2]
  · intro p hp
    exact (hother p (by simp [hp]) (hnd2 p (List.mem_append_right _ hp))).2
  · intro p hp
    exact (hother p (by simp [hp]) (hnd2 p (List.mem_append_left _ hp))).1

/-- An instance of `value_is_literal`: with the pairs `b ↦ X, a ↦ <{{ a }}>` the
template `{{ a }}` gives `<{{ a }}>`, the token inside the value left as it is. -/
theorem value_is_literal_witness :
    applySubstitutions (placeholder "a".toList)
      [("b".toList, "X".toList), ("a".toList, "<\x7b\x7b a \x7d\x7d>".toList)]
      = "<\x7b\x7b a \x7d\x7d>".toList :=
  value_is_literal _ _ _ (by decide) (by decide) (by decide)

/-! ## The substitution engine: several keys -/

theorem append_cons_unique (c : Char) :
    ∀ (a b X Y : Bytes), c ∉ a → c ∉ b → a ++ c :: X = b ++ c :: Y → a = b := by
  intro a
  induction a with
  | nil =>
    intro b X Y _ hb h
    cases b with
    | nil => rfl
    | cons d b =>
      simp only [List.nil_append, List.cons_append, List.cons.injEq] at h
      exact absurd h.1 (fun e => hb (by simp [e]))
  | cons d a ih =>
    intro b X Y ha hb h
    cases b with
    | nil =>
      simp only [List.nil_append, List.cons_append, List.cons.injEq] at h
      exact absurd h.1.symm (fun e => ha (by simp [e]))
    | cons e b =>
      simp only [List.cons_append, List.cons.injEq] at h
      rw [h.1, ih b X Y (fun m => ha (List.mem_cons_of_mem _ m))
        (fun m => hb (List.mem_cons_of_mem _ m)) h.2]

theorem braceFree_iff (s : Bytes) :
    braceFree s = true ↔ ∀ c ∈ s, c ≠ '{' ∧ c ≠ '}' := by
  simp [braceFree, List.all_eq_true]

theorem hasPrefix_placeholder_of_ne (c : Char) (s key : Bytes) (h : c ≠ '{') :
    HasPrefix (c :: s) (placeholder key) = false := by
  rw [placeholder_cons]
  simp [HasPrefix, h]

theorem scanReplace_cons_of_no_match (token value : Bytes) (c : Char) (s : Bytes)
    (h : HasPrefix (c :: s) token = false) :
    scanReplace token value 0 (c :: s) = c :: scanReplace token value 0 s := by
  rw [scanReplace]
  simp [h]

theorem scanReplace_text (key value : Bytes) :
    ∀ (w rest : Bytes), (∀ c ∈ w, c ≠ '{') →
      scanReplace (placeholder key) value 0 (w ++ rest)
        = w ++ scanReplace (placeholder key) value 0 rest := by
  intro w
  induction w with
  | nil => intro rest _; rfl
  | cons c w ih =>
    intro rest h
    have hc : c ≠ '{' := h c (by simp)
    rw [List.cons_append, scanReplace_cons_of_no_match _ _ _ _
      (hasPrefix_placeholder_of_ne c _ key hc),
      ih rest (fun d hd => h d (List.mem_cons_of_mem _ hd)), List.cons_append]

theorem hasPrefix_placeholder_other (k key rest : Bytes)
    (hk : braceFree k = true) (hkey : braceFree key = true) (hne : key ≠ k) :
    HasPrefix (placeholder key ++ rest) (placeholder k) = false := by
  cases h : HasPrefix (placeholder key ++ rest) (placeholder k) with
  | false => rfl
  | true =>
    exfalso
    obtain ⟨r, hr⟩ := (hasPrefix_iff _ _).1 h
    simp only [placeholder_cons, List.cons_append, List.cons.injEq, true_and,
      List.append_assoc] at hr
    have hk1 := (braceFree_iff k).1 hk
    have hkey1 := (braceFree_iff key).1 hkey
    have e : key ++ [' '] = k ++ [' '] := by
      apply append_cons_unique '}' (key ++ [' ']) (k ++ [' ']) ('}' :: rest) ('}' :: r)
      · intro hm
        rcases List.mem_append.1 hm with hm | hm
        · exact (hkey1 _ hm).2 rfl
        · simp at hm
      · intro hm
        rcases List.mem_append.1 hm with hm | hm
        · exact (hk1 _ hm).2 rfl
        · simp at hm
      · simpa using hr
    exact hne (List.append_cancel_right e)

theorem scanReplace_token_same (k value rest : Bytes) :
    scanReplace (placeholder k) value 0 (placeholder k ++ rest)
      = value ++ scanReplace (placeholder k) value 0 rest := by
  have hi : Index (placeholder k ++ rest) (placeholder k) = some 0 := by
    have hp := hasPrefix_append (placeholder k) rest
    rw [placeholder_cons] at hp ⊢
    simp only [List.cons_append] at hp ⊢
    rw [Index, if_pos hp]
  rw [scanReplace_of_index_some _ _ (placeholder_ne_nil k) _ 0 hi]
  simp

theorem scanReplace_token_other (k value key rest : Bytes)
    (hk : braceFree k = true) (hkey : braceFree key = true) (hne : key ≠ k) :
    scanReplace (placeholder k) value 0 (placeholder key ++ rest)
      = placeholder key ++ scanReplace (placeholder k) value 0 rest := by
  have h0 := hasPrefix_placeholder_other k key rest hk hkey hne
  have hkey1 := (braceFree_iff key).1 hkey
  have h1 : HasPrefix ('{' :: ' ' :: (key ++ [' ', '}', '}'] ++ rest)) (placeholder k) = false := by
    rw [placeholder_cons]; simp [HasPrefix]
  have h2 := scanReplace_text k value (' ' :: (key ++ [' ', '}', '}'])) rest (by
    intro c hc
    simp only [List.mem_cons, List.mem_append, List.mem_singleton, List.not_mem_nil,
      or_false] at hc
    rcases hc with rfl | hc | rfl | rfl | rfl
    · decide
    · exact (hkey1 c hc).1
    · decide
    · decide
    · decide)
  rw [placeholder_cons key] at h0 ⊢
  simp only [List.cons_append] at h0 h2 ⊢
  rw [scanReplace_cons_of_no_match _ _ _ _ h0, scanReplace_cons_of_no_match _ _ _ _ h1, h2]

theorem render_append (ps qs : List Piece) : render (ps ++ qs) = render ps ++ render qs := by
  induction ps with
  | nil => rfl
  | cons p ps ih => simp [render, ih]

theorem render_text (v : Bytes) : render (v.map Piece.text) = v := by
  induction v with
  | nil => rfl
  | cons c v ih => simp [render, Piece.render, ih]

theorem bytesReplace_render (k v : Bytes) (hk : braceFree k = true) :
    ∀ ps : List Piece, (∀ p ∈ ps, p.wellFormed = true) →
      bytesReplace (render ps) (placeholder k) v = render (substituteKey k v ps) := by
  intro ps
  rw [bytesReplace_eq_scan _ _ _ (placeholder_ne_nil k)]
  induction ps with
  | nil => intro _; rfl
  | cons p ps ih =>
    intro h
    have ih1 := ih (fun q hq => h q (List.mem_cons_of_mem _ hq))
    have hp := h p (by simp)
    cases p with
    | text c =>
      simp only [Piece.wellFormed, Bool.and_eq_true, bne_iff_ne, ne_eq] at hp
      have := scanReplace_text k v [c] (render ps) (by simpa using hp.1)
      simp only [render, Piece.render, substituteKey, this, ih1]
    | token key =>
      simp only [Piece.wellFormed] at hp
      by_cases e : key = k
      · subst e
        simp only [render, Piece.render, substituteKey, if_true, scanReplace_token_same,
          ih1, render_append, render_text]
      · simp only [render, Piece.render, substituteKey, e, if_false,
          scanReplace_token_other k v key _ hk hp e, ih1]

theorem substituteKey_wellFormed (k v : Bytes) (hv : braceFree v = true) :
    ∀ ps : List Piece, (∀ p ∈ ps, p.wellFormed = true) →
      ∀ p ∈ substituteKey k v ps, p.wellFormed = true := by
  intro ps
  have hv1 := (braceFree_iff v).1 hv
  induction ps with
  | nil => intro _ p hp; simp [substituteKey] at hp
  | cons q ps ih =>
    intro h p hp
    have ih1 := ih (fun r hr => h r (List.mem_cons_of_mem _ hr))
    have hq := h q (by simp)
    cases q with
    | text c =>
      simp only [substituteKey, List.mem_cons] at hp
      rcases hp with rfl | hp
      · exact hq
      · exact ih1 p hp
    | token key =>
      simp only [substituteKey] at hp
      split at hp
      · rcases List.mem_append.1 hp with hp | hp
        · obtain ⟨c, hc, rfl⟩ := List.mem_map.1 hp
          simp [Piece.wellFormed, hv1 c hc]
        · exact ih1 p hp
      · rcases List.mem_cons.1 hp with rfl | hp
        · exact hq
        · exact ih1 p hp

theorem substituteAll_text (m : Substitution) (v : Bytes) (qs : List Piece) :
    substituteAll m (v.map Piece.text ++ qs) = v ++ substituteAll m qs := by
  induction v with
  | nil => rfl
  | cons c v ih => simp [substituteAll, Piece.substitute, ih]

theorem substituteAll_cons (k v : Bytes) (m : Substitution) :
    ∀ ps : List Piece,
      substituteAll m (substituteKey k v ps) = substituteAll ((k, v) :: m) ps := by
  intro ps
  induction ps with
  | nil => rfl
  | cons p ps ih =>
    cases p with
    | text c => simp [substituteKey, substituteAll, Piece.substitute, ih]
    | token key =>
      by_cases e : key = k
      · subst e
        simp [substituteKey, substituteAll, Piece.substitute, lookupValue, ih,
          substituteAll_text]
      · have e2 : ¬ k = key := fun h => e h.symm
        simp [substituteKey, substituteAll, Piece.substitute, lookupValue, ih, e, e2]

theorem substituteAll_nil (ps : List Piece) : substituteAll [] ps = render ps := by
  induction ps with
  | nil => rfl
  | cons p ps ih => cases p <;> simp [substituteAll, Piece.substitute, lookupValue, render,
      Piece.render, ih]

theorem applySubstitutions_render (m : Substitution)
    (hm : ∀ p ∈ m, braceFree p.1 = true ∧ braceFree p.2 = true) :
    ∀ ps : List Piece, (∀ p ∈ ps, p.wellFormed = true) →
      applySubstitutions (render ps) m = substituteAll m ps := by
  induction m with
  | nil => intro ps _; rw [applySubstitutions_nil, substituteAll_nil]
  | cons kv m ih =>
    intro ps hps
    obtain ⟨k, v⟩ := kv
    have hkv := hm (k, v) (by simp)
    rw [applySubstitutions_cons, bytesReplace_render k v hkv.1 ps hps,
      ih (fun q hq => hm q (List.mem_cons_of_mem _ hq)) _
        (substituteKey_wellFormed k v hkv.2 ps hps),
      substituteAll_cons]

theorem lookupValue_eq_some_iff (k v : Bytes) :
    ∀ m : Substitution, (m.map Prod.fst).Nodup →
      (lookupValue m k = some v ↔ (k, v) ∈ m) := by
  intro m
  induction m with
  | nil => intro _; simp [lookupValue]
  | cons p m ih =>
    intro hnd
    obtain ⟨k1, v1⟩ := p
    simp only [List.map_cons, List.nodup_cons] at hnd
    by_cases e : k1 = k
    · subst e
      simp only [lookupValue, if_true, Option.some.injEq, List.mem_cons, Prod.mk.injEq,
        true_and]
      constructor
      · intro h; exact Or.inl h.symm
      · rintro (h | h)
        · exact h.symm
        · exact absurd (List.mem_map_of_mem Prod.fst h) hnd.1
    · have e2 : ¬ k = k1 := fun h => e h.symm
      simp [lookupValue, e, e2, ih hnd.2]

theorem lookupValue_perm (m1 m2 : Substitution) (hnd : (m1.map Prod.fst).Nodup)
    (hperm : m1.Perm m2) (k : Bytes) : lookupValue m1 k = lookupValue m2 k := by
  have hnd2 : (m2.map Prod.fst).Nodup := (hperm.map Prod.fst).nodup_iff.1 hnd
  apply Option.ext
  intro v
  simp only [Option.mem_def]
  rw [lookupValue_eq_some_iff k v m1 hnd, lookupValue_eq_some_iff k v m2 hnd2]
  exact hperm.mem_iff

theorem substituteAll_congr (m1 m2 : Substitution)
    (h : ∀ k, lookupValue m1 k = lookupValue m2 k) :
    ∀ ps : List Piece, substituteAll m1 ps = substituteAll m2 ps := by
  intro ps
  induction ps with
  | nil => rfl
  | cons p ps ih => cases p <;> simp [substituteAll, Piece.substitute, h, ih]

/-- C6, as stated, fails: in the mapping `a ↦ {, b ↦ Y` no value contains
the token of the other key, yet on the template `{{{ a }} b }}` the order
`a, b` gives `Y` and the order `b, a` gives `{{ b }}`: the value of `a`,
once inserted, completes a token of `b`. -/
theorem order_dependent_counterexample :
    Index "\x7b".toList (placeholder "b".toList) = none
    ∧ Index "Y".toList (placeholder "a".toList) = none
    ∧ applySubstitutions "\x7b\x7b\x7b a \x7d\x7d b \x7d\x7d".toList
        [("a".toList, "\x7b".toList), ("b".toList, "Y".toList)] = "Y".toList
    ∧ applySubstitutions "\x7b\x7b\x7b a \x7d\x7d b \x7d\x7d".toList
        [("b".toList, "Y".toList), ("a".toList, "\x7b".toList)]
        = "\x7b\x7b b \x7d\x7d".toList
    ∧ "Y".toList ≠ "\x7b\x7b b \x7d\x7d".toList := by
  decide

/-- C6, amended: for every template made of brace-free text and of tokens
with brace-free keys, and every mapping with distinct keys whose keys and
values are brace-free, applying the pairs in any two iteration orders gives
the same output bytes. -/
theorem order_independent (ps : List Piece) (m1 m2 : Substitution)
    (hps : ∀ p ∈ ps, p.wellFormed = true)
    (hm : ∀ p ∈ m1, braceFree p.1 = true ∧ braceFree p.2 = true)
    (hnd : (m1.map Prod.fst).Nodup) (hperm : m1.Perm m2) :
    applySubstitutions (render ps) m1 = applySubstitutions (render ps) m2 := by
  rw [applySubstitutions_render m1 hm ps hps,
    applySubstitutions_render m2 (fun p hp => hm p (hperm.mem_iff.2 hp)) ps hps]
  exact substituteAll_congr m1 m2 (lookupValue_perm m1 m2 hnd hperm) ps

/-- An instance of `order_independent`: the template `<{{ a }}|{{ b }}>` with the
pairs `a ↦ 1, b ↦ 2` in both orders. -/
theorem order_independent_witness :
    applySubstitutions
        (render [.text '<', .token "a".toList, .text '|', .token "b".toList, .text '>'])
        [("a".toList, "1".toList), ("b".toList, "2".toList)]
      = applySubstitutions
        (render [.text '<', .token "a".toList, .text '|', .token "b".toList, .text '>'])
        [("b".toList, "2".toList), ("a".toList, "1".toList)] :=
  order_independent _ _ _ (by decide) (by decide) (by decide) (List.Perm.swap _ _ _)

/-- C7, as stated, fails: the mapping `a ↦ {{ b }}, b ↦ X` and the template
`{{ a }}` give `X` when the keys are iterated in the order `a, b` and
`{{ b }}` in the order `b, a`. -/
theorem run_dependent_counterexample :
    applySubstitutions "\x7b\x7b a \x7d\x7d".toList
        [("a".toList, "\x7b\x7b b \x7d\x7d".toList), ("b".toList, "X".toList)]
        = "X".toList
    ∧ applySubstitutions "\x7b\x7b a \x7d\x7d".toList
        [("b".toList, "X".toList), ("a".toList, "\x7b\x7b b \x7d\x7d".toList)]
        = "\x7b\x7b b \x7d\x7d".toList
    ∧ "X".toList ≠ "\x7b\x7b b \x7d\x7d".toList := by
  decide

/-- C7, amended: for every template made of brace-free text and of tokens
with brace-free keys, and every mapping `m` with distinct keys whose keys and
values are brace-free, two runs that iterate `m` in the orders `run1` and
`run2` both return the simultaneous substitution of `m` into the template,
which depends on the template and the mapping alone. -/
theorem output_determined (ps : List Piece) (m run1 run2 : Substitution)
    (hps : ∀ p ∈ ps, p.wellFormed = true)
    (hm : ∀ p ∈ m, braceFree p.1 = true ∧ braceFree p.2 = true)
    (hnd : (m.map Prod.fst).Nodup) (h1 : m.Perm run1) (h2 : m.Perm run2) :
    applySubstitutions (render ps) run1 = substituteAll m ps
    ∧ applySubstitutions (render ps) run2 = substituteAll m ps := by
  constructor
  · rw [applySubstitutions_render run1 (fun p hp => hm p (h1.mem_iff.2 hp)) ps hps]
    exact (substituteAll_congr m run1 (lookupValue_perm m run1 hnd h1) ps).symm
  · rw [applySubstitutions_render run2 (fun p hp => hm p (h2.mem_iff.2 hp)) ps hps]
    exact (substituteAll_congr m run2 (lookupValue_perm m run2 hnd h2) ps).symm

/-- An instance of `output_determined`: the template `{{ x }}-{{ y }}` with the
mapping `x ↦ 1, y ↦ 2`, iterated once as `x, y` and once as `y, x`. -/
theorem output_determined_witness :
    applySubstitutions (render [.token "x".toList, .text '-', .token "y".toList])
        [("x".toList, "1".toList), ("y".toList, "2".toList)]
      = substituteAll [("x".toList, "1".toList), ("y".toList, "2".toList)]
        [.token "x".toList, .text '-', .token "y".toList]
    ∧ applySubstitutions (render [.token "x".toList, .text '-', .token "y".toList])
        [("y".toList, "2".toList), ("x".toList, "1".toList)]
      = substituteAll [("x".toList, "1".toList), ("y".toList, "2".toList)]
        [.token "x".toList, .text '-', .token "y".toList] :=
  output_determined _ _ _ _ (by decide) (by decide) (by decide) (List.Perm.refl _)
    (List.Perm.swap _ _ _)

/-! ## The name of the output file -/

theorem hasSuffix_iff (s suffix : Bytes) :
    HasSuffix s suffix = true ↔ ∃ stem, s = stem ++ suffix := by
  constructor
  · intro h
    simp only [HasSuffix, Bool.and_eq_true, decide_eq_true_eq, beq_iff_eq] at h
    refine ⟨s.take (s.length - suffix.length), ?_⟩
    conv_lhs => rw [← List.take_append_drop (s.length - suffix.length) s]
    rw [h.2]
  · rintro ⟨stem, rfl⟩
    simp [HasSuffix]

theorem trimSuffix_append (stem suffix : Bytes) : TrimSuffix (stem ++ suffix) suffix = stem := by
  have h : HasSuffix (stem ++ suffix) suffix = true := (hasSuffix_iff _ _).2 ⟨stem, rfl⟩
  simp [TrimSuffix, h]

/-- C3: for every template name `n`, either `n` is `stem ++ ".tmpl"` and the
name used for the output file is `stem` (one trailing `.tmpl` removed), or
`n` does not end with `.tmpl` and the name is `n` unchanged; the stripping
is total.  So `foo.tmpl` gives `foo`, `foo.tmpl.tmpl` gives `foo.tmpl` and
`foo.txt` gives `foo.txt`. -/
theorem trimSuffix_tmpl (n : Bytes) :
    ((∃ stem, n = stem ++ ".tmpl".toList ∧ TrimSuffix n ".tmpl".toList = stem)
      ∨ ((¬ ∃ stem, n = stem ++ ".tmpl".toList) ∧ TrimSuffix n ".tmpl".toList = n))
    ∧ TrimSuffix "foo.tmpl".toList ".tmpl".toList = "foo".toList
    ∧ TrimSuffix "foo.tmpl.tmpl".toList ".tmpl".toList = "foo.tmpl".toList
    ∧ TrimSuffix "foo.txt".toList ".tmpl".toList = "foo.txt".toList := by
  refine ⟨?_, by decide, by decide, by decide⟩
  by_cases h : ∃ stem, n = stem ++ ".tmpl".toList
  · obtain ⟨stem, rfl⟩ := h
    exact Or.inl ⟨stem, rfl, trimSuffix_append stem _⟩
  · refine Or.inr ⟨h, ?_⟩
    have hs : HasSuffix n ".tmpl".toList = false := by
      cases e : HasSuffix n ".tmpl".toList with
      | false => rfl
      | true => exact absurd ((hasSuffix_iff _ _).1 e) h
    rw [TrimSuffix, hs]
    rfl

/-! ## The driver -/

theorem processProjects_cons_ok (os : Faults) (td pod : Bytes) (e : Project)
    (rest : List Project) (fs fs1 : FS)
    (h : processTemplate os td pod e fs = ⟨fs1, none⟩) :
    processProjects os td pod (e :: rest) fs = processProjects os td pod rest fs1 := by
  simp only [processProjects, h]

theorem processProjects_cons_fatal (os : Faults) (td pod : Bytes) (e : Project)
    (rest : List Project) (fs fs1 : FS) (err : Error)
    (h : processTemplate os td pod e fs = ⟨fs1, some err⟩) :
    processProjects os td pod (e :: rest) fs = ⟨fs1, some err⟩ := by
  simp only [processProjects, h]

theorem processProjects_append (os : Faults) (td pod : Bytes) (after : List Project) :
    ∀ (before : List Project) (fs fs1 : FS),
      processProjects os td pod before fs = ⟨fs1, none⟩ →
      processProjects os td pod (before ++ after) fs
        = processProjects os td pod after fs1 := by
  intro before
  induction before with
  | nil =>
    intro fs fs1 h
    simp only [processProjects, Outcome.mk.injEq, and_true] at h
    subst h
    rfl
  | cons e before ih =>
    intro fs fs1 h
    rcases hr : processTemplate os td pod e fs with ⟨fs2, _ | err⟩
    · rw [processProjects_cons_ok os td pod e before fs fs2 hr] at h
      rw [List.cons_append, processProjects_cons_ok os td pod e _ fs fs2 hr]
      exact ih fs2 fs1 h
    · rw [processProjects_cons_fatal os td pod e before fs fs2 err hr] at h
      simp at h

theorem processTemplate_unreadable (os : Faults) (td pod : Bytes) (e : Project) (fs : FS)
    (h : ReadFile fs (templateFile td e) = none) :
    processTemplate os td pod e fs = ⟨fs, some (Error.readTemplate (templateFile td e))⟩ := by
  simp only [processTemplate, h]

/-- C5: when the entries before entry `e` of a project have been processed
without error, leaving the file system `fs1`, and the template of `e`
cannot be read there, then the loop over the project's entries, and the
whole run whatever projects would follow, end with the fatal read error of
`e` in the file system `fs1`: nothing is created or written for `e`, no later
entry is processed, and what the earlier entries wrote stays. -/
theorem halt_at_unreadable_template (os : Faults) (templateDir outputDir name : Bytes)
    (before after : List Project) (e : Project) (others : List (Bytes × List Project))
    (fs fs1 : FS)
    (hbefore : processProjects os templateDir (Join [outputDir, name]) before fs = ⟨fs1, none⟩)
    (hread : ReadFile fs1 (templateFile templateDir e) = none) :
    processProjects os templateDir (Join [outputDir, name]) (before ++ e :: after) fs
      = ⟨fs1, some (Error.readTemplate (templateFile templateDir e))⟩
    ∧ main os templateDir outputDir ((name, before ++ e :: after) :: others) fs
      = ⟨fs1, some (Error.readTemplate (templateFile templateDir e))⟩ := by
  have h : processProjects os templateDir (Join [outputDir, name]) (before ++ e :: after) fs
      = ⟨fs1, some (Error.readTemplate (templateFile templateDir e))⟩ := by
    rw [processProjects_append os templateDir _ _ before fs fs1 hbefore]
    exact processProjects_cons_fatal os templateDir _ e after fs1 fs1 _
      (processTemplate_unreadable os templateDir _ e fs1 hread)
  refine ⟨h, ?_⟩
  simp only [main, h]

theorem processTemplate_ok (os : Faults) (td pod : Bytes) (e : Project) (fs fs1 : FS)
    (h : processTemplate os td pod e fs = ⟨fs1, none⟩) :
    ∃ c, ReadFile fs (templateFile td e) = some c
      ∧ fs1 = withFile (withDirs fs (Dir (outputFile pod e)) (fun _ => true))
          (outputFile pod e) (applySubstitutions c e.Substitution) := by
  unfold processTemplate at h
  cases hr : ReadFile fs (templateFile td e) with
  | none => simp [hr] at h
  | some c =>
    simp only [hr] at h
    refine ⟨c, rfl, ?_⟩
    by_cases hm : os.mkdirAll fs (Dir (outputFile pod e)) = true
    · simp [MkdirAll, hm] at h
    · simp only [MkdirAll, hm, Bool.false_eq_true, if_false] at h
      by_cases hw : os.writeFile (withDirs fs (Dir (outputFile pod e)) (fun _ => true))
          (outputFile pod e) (applySubstitutions c e.Substitution) = true
      · simp [WriteFile, hw] at h
      · simp only [WriteFile, hw, Bool.false_eq_true, if_false, Outcome.mk.injEq,
          and_true] at h
        exact h.symm

theorem processProjects_final (os : Faults) (td pod : Bytes) :
    ∀ (es : List Project) (fs fs1 : FS),
      (es.map (fun e => fs.resolve (outputFile pod e))).Nodup →
      (∀ e ∈ es, ∀ e1 ∈ es,
        fs.resolve (outputFile pod e) ≠ fs.resolve (templateFile td e1)) →
      processProjects os td pod es fs = ⟨fs1, none⟩ →
      fs1.resolve = fs.resolve
      ∧ (∀ e ∈ es, fs1.files (fs.resolve (outputFile pod e))
          = (ReadFile fs (templateFile td e)).map
              (fun c => applySubstitutions c e.Substitution))
      ∧ (∀ i, (∀ e ∈ es, fs.resolve (outputFile pod e) ≠ i) → fs1.files i = fs.files i)
      ∧ (∀ i, fs1.dirs i = true
          ↔ (fs.dirs i = true ∨ ∃ e ∈ es,
              (withDirs fs (Dir (outputFile pod e)) (fun _ => true)).dirs i = true)) := by
  intro es
  induction es with
  | nil =>
    intro fs fs1 _ _ h
    simp only [processProjects, Outcome.mk.injEq, and_true] at h
    subst h
    simp
  | cons e0 es ih =>
    intro fs fs1 hnd hsrc h
    rcases hr : processTemplate os td pod e0 fs with ⟨fs2, _ | err⟩
    · rw [processProjects_cons_ok os td pod e0 es fs fs2 hr] at h
      obtain ⟨c, hc, hfs2⟩ := processTemplate_ok os td pod e0 fs fs2 hr
      have hres : fs2.resolve = fs.resolve := by rw [hfs2]; rfl
      have hfiles : fs2.files = (fun i => if i = fs.resolve (outputFile pod e0)
          then some (applySubstitutions c e0.Substitution) else fs.files i) := by
        rw [hfs2]; rfl
      have hdirs : ∀ i, fs2.dirs i
          = (withDirs fs (Dir (outputFile pod e0)) (fun _ => true)).dirs i := by
        intro i; rw [hfs2]; rfl
      have hwd : ∀ (path : Bytes) (i : Bytes),
          (withDirs fs2 path (fun _ => true)).dirs i = true
            ↔ ((withDirs fs path (fun _ => true)).dirs i = true ∨ fs2.dirs i = true) := by
        intro path i
        have hmono : fs.dirs i = true → fs2.dirs i = true := by
          intro hfi
          rw [hdirs i]
          simp [withDirs, hfi]
        simp only [withDirs, hres, Bool.or_eq_true]
        tauto
      simp only [List.map_cons, List.nodup_cons] at hnd
      have hsrc1 : ∀ e ∈ es, ∀ e1 ∈ es,
          fs2.resolve (outputFile pod e) ≠ fs2.resolve (templateFile td e1) := by
        intro e he e1 he1
        rw [hres]
        exact hsrc e (List.mem_cons_of_mem _ he) e1 (List.mem_cons_of_mem _ he1)
      have hnd1 : (es.map (fun e => fs2.resolve (outputFile pod e))).Nodup := by
        rw [hres]; exact hnd.2
      obtain ⟨hr1, ha, hb, hd⟩ := ih fs2 fs1 hnd1 hsrc1 h
      rw [hres] at ha hb
      have hnot : ∀ e ∈ es, fs.resolve (outputFile pod e) ≠ fs.resolve (outputFile pod e0) :=
        fun e he heq => hnd.1 (heq ▸ List.mem_map_of_mem _ he)
      refine ⟨hr1.trans hres, ?_, ?_, ?_⟩
      · intro e he
        rcases List.mem_cons.1 he with rfl | he
        · rw [hb _ hnot, hfiles, hc]
          simp
        · rw [ha e he]
          have hne : fs.resolve (templateFile td e) ≠ fs.resolve (outputFile pod e0) :=
            fun heq => hsrc e0 (by simp) e (List.mem_cons_of_mem _ he) heq.symm
          simp only [ReadFile, hres, hfiles, hne, if_false]
      · intro i hi
        rw [hb i (fun e he => hi e (List.mem_cons_of_mem _ he)), hfiles]
        have : i ≠ fs.resolve (outputFile pod e0) := fun heq => hi e0 (by simp) heq.symm
        simp [this]
      · intro i
        rw [hd i]
        simp only [List.mem_cons, exists_eq_or_imp, hwd, hdirs]
        have hbase : fs.dirs i = true
            → (withDirs fs (Dir (outputFile pod e0)) (fun _ => true)).dirs i = true := by
          intro hfi
          simp [withDirs, hfi]
        constructor
        · rintro (h1 | ⟨e, he, h1 | h1⟩)
          · by_cases hfi : fs.dirs i = true
            · exact Or.inl hfi
            · exact Or.inr (Or.inl h1)
          · exact Or.inr (Or.inr ⟨e, he, h1⟩)
          · by_cases hfi : fs.dirs i = true
            · exact Or.inl hfi
            · exact Or.inr (Or.inl h1)
        · rintro (h1 | h1 | ⟨e, he, h1⟩)
          · exact Or.inl (hbase h1)
          · exact Or.inl h1
          · exact Or.inr ⟨e, he, Or.inl h1⟩
    · rw [processProjects_cons_fatal os td pod e0 es fs fs2 err hr] at h
      simp at h

/-- C10, as stated, fails: two entries of a project with the same template
and different substitutions write the same output file, and the entry
processed last decides its content: in declared order the file holds `2`,
in the other order `1`, every read and write succeeding. -/
theorem entry_order_counterexample :
    (main noFaults "t".toList "o".toList
        [("p".toList, [⟨"d".toList, "a.tmpl".toList, [("x".toList, "1".toList)]⟩,
                       ⟨"d".toList, "a.tmpl".toList, [("x".toList, "2".toList)]⟩])]
        (fsOf [("t/d/a.tmpl".toList, "\x7b\x7b x \x7d\x7d".toList)])).fatal = none
    ∧ (main noFaults "t".toList "o".toList
        [("p".toList, [⟨"d".toList, "a.tmpl".toList, [("x".toList, "2".toList)]⟩,
                       ⟨"d".toList, "a.tmpl".toList, [("x".toList, "1".toList)]⟩])]
        (fsOf [("t/d/a.tmpl".toList, "\x7b\x7b x \x7d\x7d".toList)])).fatal = none
    ∧ ReadFile (main noFaults "t".toList "o".toList
        [("p".toList, [⟨"d".toList, "a.tmpl".toList, [("x".toList, "1".toList)]⟩,
                       ⟨"d".toList, "a.tmpl".toList, [("x".toList, "2".toList)]⟩])]
        (fsOf [("t/d/a.tmpl".toList, "\x7b\x7b x \x7d\x7d".toList)])).fs "o/p/d/a".toList
        = some "2".toList
    ∧ ReadFile (main noFaults "t".toList "o".toList
        [("p".toList, [⟨"d".toList, "a.tmpl".toList, [("x".toList, "2".toList)]⟩,
                       ⟨"d".toList, "a.tmpl".toList, [("x".toList, "1".toList)]⟩])]
        (fsOf [("t/d/a.tmpl".toList, "\x7b\x7b x \x7d\x7d".toList)])).fs "o/p/d/a".toList
        = some "1".toList := by
  decide

/-- C10, amended: when the output paths of a project's entries name pairwise
distinct files, none of which is the file that the template path of an entry
of the project names, processing the entries in declared order and in any
permuted order, both without error, leaves the same file system: the same
files with the same contents and the same directories.  Which file a path
name names is decided by the file system (`resolve`), not by the bytes of the
name. -/
theorem entry_order_irrelevant (os : Faults) (templateDir projectOutputDir : Bytes)
    (es es1 : List Project) (fs fsA fsB : FS) (hperm : es.Perm es1)
    (hnd : (es.map (fun e => fs.resolve (outputFile projectOutputDir e))).Nodup)
    (hsrc : ∀ e ∈ es, ∀ e1 ∈ es,
      fs.resolve (outputFile projectOutputDir e) ≠ fs.resolve (templateFile templateDir e1))
    (hA : processProjects os templateDir projectOutputDir es fs = ⟨fsA, none⟩)
    (hB : processProjects os templateDir projectOutputDir es1 fs = ⟨fsB, none⟩) :
    fsA = fsB := by
  have hnd1 : (es1.map (fun e => fs.resolve (outputFile projectOutputDir e))).Nodup :=
    (hperm.map _).nodup_iff.1 hnd
  have hsrc1 : ∀ e ∈ es1, ∀ e1 ∈ es1,
      fs.resolve (outputFile projectOutputDir e) ≠ fs.resolve (templateFile templateDir e1) :=
    fun e he e1 he1 => hsrc e (hperm.mem_iff.2 he) e1 (hperm.mem_iff.2 he1)
  obtain ⟨r1, a1, b1, d1⟩ :=
    processProjects_final os templateDir projectOutputDir es fs fsA hnd hsrc hA
  obtain ⟨r2, a2, b2, d2⟩ :=
    processProjects_final os templateDir projectOutputDir es1 fs fsB hnd1 hsrc1 hB
  have hfiles : fsA.files = fsB.files := by
    funext i
    by_cases hi : ∃ e ∈ es, fs.resolve (outputFile projectOutputDir e) = i
    · obtain ⟨e, he, rfl⟩ := hi
      rw [a1 e he, a2 e (hperm.mem_iff.1 he)]
    · have hi1 : ∀ e ∈ es, fs.resolve (outputFile projectOutputDir e) ≠ i :=
        fun e he heq => hi ⟨e, he, heq⟩
      rw [b1 i hi1, b2 i (fun e he => hi1 e (hperm.mem_iff.2 he))]
  have hdirs : fsA.dirs = fsB.dirs := by
    funext i
    rw [Bool.eq_iff_iff, d1 i, d2 i]
    constructor
    · rintro (h | ⟨e, he, h⟩)
      · exact Or.inl h
      · exact Or.inr ⟨e, hperm.mem_iff.1 he, h⟩
    · rintro (h | ⟨e, he, h⟩)
      · exact Or.inl h
      · exact Or.inr ⟨e, hperm.mem_iff.2 he, h⟩
  cases fsA
  cases fsB
  simp only [FS.mk.injEq]
  exact ⟨r1.trans r2.symm, hfiles, hdirs⟩

/-! ## Paths: the elements of a path -/

theorem elements_ne_nil (s : Bytes) : elements s ≠ [] := by
  cases s with
  | nil => simp [elements]
  | cons c s =>
    simp only [elements]
    split
    · simp
    · split <;> simp

theorem elements_cons_sep (s : Bytes) : elements ('/' :: s) = [] :: elements s := by
  simp [elements]

theorem elements_cons_of_ne (c : Char) (s e : Bytes) (es : List Bytes) (h : c ≠ '/')
    (he : elements s = e :: es) : elements (c :: s) = (c :: e) :: es := by
  simp [elements, h, he]

theorem elements_eq (s : Bytes) :
    elements s = s.takeWhile (· ≠ '/') :: (elements (s.dropWhile (· ≠ '/'))).tail := by
  induction s with
  | nil => simp [elements]
  | cons c s ih =>
    by_cases hc : c = '/'
    · subst hc
      simp [elements]
    · simp only [elements, hc, if_false, ne_eq, not_false_eq_true, decide_True,
        List.takeWhile_cons_of_pos, List.dropWhile_cons_of_pos]
      rw [ih]

theorem dropWhile_sep (s : Bytes) :
    s.dropWhile (· ≠ '/') = [] ∨ ∃ r, s.dropWhile (· ≠ '/') = '/' :: r := by
  induction s with
  | nil => exact Or.inl rfl
  | cons c s ih =>
    by_cases hc : c = '/'
    · subst hc
      exact Or.inr ⟨s, by simp⟩
    · simpa [hc] using ih

theorem elements_dropWhile (s : Bytes) :
    ∃ es, elements (s.dropWhile (· ≠ '/')) = [] :: es := by
  rcases dropWhile_sep s with h | ⟨r, h⟩
  · exact ⟨[], by rw [h]; rfl⟩
  · exact ⟨elements r, by rw [h, elements_cons_sep]⟩

theorem push_nil (rooted : Bool) (st : Stack) : Stack.push rooted st [] = st := by
  simp [Stack.push]

theorem foldl_push_elements (rooted : Bool) (st : Stack) (s : Bytes) :
    (elements s).foldl (Stack.push rooted) st
      = (elements (s.dropWhile (· ≠ '/'))).foldl (Stack.push rooted)
          (Stack.push rooted st (s.takeWhile (· ≠ '/'))) := by
  obtain ⟨es, hes⟩ := elements_dropWhile s
  conv_lhs => rw [elements_eq s]
  rw [hes]
  simp [push_nil]

theorem elements_append (b : Bytes) :
    ∀ a : Bytes, elements (a ++ '/' :: b) = elements a ++ elements b := by
  intro a
  induction a with
  | nil => simp [elements]
  | cons c a ih =>
    by_cases hc : c = '/'
    · subst hc
      simp [elements, ih]
    · obtain ⟨e, es, he⟩ := List.exists_cons_of_ne_nil (elements_ne_nil a)
      rw [List.cons_append,
        elements_cons_of_ne c _ e (es ++ elements b) hc (by rw [ih, he]; rfl),
        elements_cons_of_ne c a e es hc he]
      rfl

theorem elements_of_name (e : Bytes) (h : '/' ∉ e) : elements e = [e] := by
  induction e with
  | nil => rfl
  | cons c e ih =>
    have hc : c ≠ '/' := fun hc => h (by simp [hc])
    have he : '/' ∉ e := fun he => h (List.mem_cons_of_mem _ he)
    simp [elements, hc, ih he]

theorem elements_stringsJoin :
    ∀ l : List Bytes, l ≠ [] → (∀ e ∈ l, '/' ∉ e) →
      elements (stringsJoin ['/'] l) = l := by
  intro l
  induction l with
  | nil => intro h; exact absurd rfl h
  | cons e l ih =>
    intro _ h
    cases l with
    | nil => exact elements_of_name e (h e (by simp))
    | cons f l =>
      have := ih (List.cons_ne_nil _ _) (fun x hx => h x (List.mem_cons_of_mem _ hx))
      simp only [stringsJoin, List.append_assoc, List.singleton_append]
      rw [elements_append, elements_of_name e (h e (by simp)), this]
      rfl

/-! ## Paths: the bytes of a cleaned path -/

theorem stringsJoin_snoc (sep e : Bytes) :
    ∀ l : List Bytes, l ≠ [] →
      stringsJoin sep (l ++ [e]) = stringsJoin sep l ++ sep ++ e := by
  intro l
  induction l with
  | nil => intro h; exact absurd rfl h
  | cons a l ih =>
    intro _
    cases l with
    | nil => simp [stringsJoin]
    | cons b l =>
      have := ih (List.cons_ne_nil _ _)
      simp only [List.cons_append] at this ⊢
      simp only [stringsJoin, this, List.append_assoc]

theorem stringsJoin_ne_nil (sep : Bytes) :
    ∀ l : List Bytes, l ≠ [] → (∀ e ∈ l, e ≠ []) → stringsJoin sep l ≠ [] := by
  intro l hl h
  cases l with
  | nil => exact absurd rfl hl
  | cons a l =>
    have ha := h a (by simp)
    cases l with
    | nil => simpa [stringsJoin] using ha
    | cons b l => simp [stringsJoin, ha]

theorem stringsJoin_length_le (sep : Bytes) :
    ∀ (b a : List Bytes),
      (stringsJoin sep a).length ≤ (stringsJoin sep (a ++ b)).length := by
  intro b
  induction b with
  | nil => intro a; simp
  | cons x b ih =>
    intro a
    have h1 : (stringsJoin sep a).length ≤ (stringsJoin sep (a ++ [x])).length := by
      by_cases ha : a = []
      · subst ha; simp [stringsJoin]
      · rw [stringsJoin_snoc sep x a ha]
        simp only [List.length_append]
        omega
    have h2 := ih (a ++ [x])
    rw [List.append_assoc] at h2
    exact Nat.le_trans h1 h2

theorem backtrack_sep (pre last : Bytes) (dd : Nat) (hlast : ∀ c ∈ last, c ≠ '/')
    (hdd : dd ≤ pre.length) :
    ∀ n, n ≤ last.length →
      backtrack (pre ++ '/' :: last) dd (pre.length + n) = pre.length := by
  intro n
  induction n with
  | zero =>
    intro _
    cases hp : pre.length with
    | zero => rfl
    | succ w =>
      have : (pre ++ '/' :: last)[w + 1]? = some '/' := by
        rw [← hp, List.getElem?_append_right (Nat.le_refl _)]
        simp
      simp [backtrack, this]
  | succ n ih =>
    intro hn
    have hget : (pre ++ '/' :: last)[pre.length + n + 1]? = last[n]? := by
      rw [List.getElem?_append_right (by omega)]
      have : pre.length + n + 1 - pre.length = n + 1 := by omega
      rw [this]
      simp
    have hc : (pre ++ '/' :: last)[pre.length + n + 1]? ≠ some '/' := by
      rw [hget, List.getElem?_eq_getElem (by omega)]
      intro h
      simp only [Option.some.injEq] at h
      exact hlast _ (List.getElem_mem _) h
    have hlt : dd < pre.length + n + 1 := by omega
    rw [← Nat.add_assoc]
    simp only [backtrack, hlt, hc, ne_eq, not_false_eq_true, and_self, if_true]
    exact ih (by omega)

theorem backtrack_stop (pre last : Bytes) (hlast : ∀ c ∈ last, c ≠ '/') :
    ∀ n, n < last.length →
      backtrack (pre ++ last) pre.length (pre.length + n) = pre.length := by
  intro n
  induction n with
  | zero =>
    intro _
    cases hp : pre.length with
    | zero => rfl
    | succ w => simp [backtrack]
  | succ n ih =>
    intro hn
    have hc : (pre ++ last)[pre.length + n + 1]? ≠ some '/' := by
      rw [List.getElem?_append_right (by omega)]
      have : pre.length + n + 1 - pre.length = n + 1 := by omega
      rw [this, List.getElem?_eq_getElem hn]
      intro h
      simp only [Option.some.injEq] at h
      exact hlast _ (List.getElem_mem _) h
    have hlt : pre.length < pre.length + n + 1 := by omega
    rw [← Nat.add_assoc]
    simp only [backtrack, hlt, hc, ne_eq, not_false_eq_true, and_self, if_true]
    exact ih (by omega)

theorem elems_mem (rooted : Bool) (st : Stack) (hv : st.Valid rooted) :
    ∀ e ∈ st.elems, e ≠ [] ∧ '/' ∉ e := by
  intro e he
  simp only [Stack.elems, List.mem_append, List.mem_replicate] at he
  rcases he with ⟨_, rfl⟩ | he
  · constructor <;> decide
  · exact ⟨(hv.2 e he).1, (hv.2 e he).2.1⟩

theorem elems_snoc (ups : Nat) (names : List Bytes) (e : Bytes) :
    Stack.elems ⟨ups, names ++ [e]⟩ = Stack.elems ⟨ups, names⟩ ++ [e] := by
  simp [Stack.elems]

theorem render_length (rooted : Bool) (st : Stack) (hv : st.Valid rooted) :
    ((rooted = true ∧ (st.render rooted).length ≠ 1)
      ∨ (rooted = false ∧ (st.render rooted).length ≠ 0)) ↔ st.elems ≠ [] := by
  have hj : stringsJoin ['/'] st.elems = [] ↔ st.elems = [] := by
    constructor
    · intro h
      by_contra hne
      exact stringsJoin_ne_nil _ _ hne (fun e he => (elems_mem rooted st hv e he).1) h
    · intro h; rw [h]; rfl
  cases rooted <;> simp [Stack.render, hj]

theorem render_push_name (rooted : Bool) (st : Stack) (e : Bytes) (hv : st.Valid rooted) :
    (if (rooted = true ∧ (st.render rooted).length ≠ 1)
        ∨ (rooted = false ∧ (st.render rooted).length ≠ 0)
      then st.render rooted ++ ['/'] else st.render rooted) ++ e
      = Stack.render rooted ⟨st.ups, st.names ++ [e]⟩ := by
  have hl := render_length rooted st hv
  by_cases h : st.elems = []
  · rw [if_neg (fun hc => (hl.1 hc) h)]
    have h1 : Stack.elems ⟨st.ups, st.names ++ [e]⟩ = [e] := by
      rw [elems_snoc]; show st.elems ++ [e] = [e]; rw [h]; rfl
    simp only [Stack.render, h, h1, stringsJoin, List.append_nil]
  · rw [if_pos (hl.2 h)]
    have h1 : Stack.elems ⟨st.ups, st.names ++ [e]⟩ = st.elems ++ [e] := elems_snoc _ _ _
    simp only [Stack.render, h1, stringsJoin_snoc _ _ _ h, List.append_assoc]

theorem dotdot_le_render (rooted : Bool) (st : Stack) :
    st.dotdot rooted ≤ (st.render rooted).length := by
  simp only [Stack.dotdot, Stack.render, Stack.elems, List.append_nil, List.length_append]
  have := stringsJoin_length_le ['/'] st.names (List.replicate st.ups ['.', '.'])
  omega

theorem render_pop (rooted : Bool) (st : Stack) (init : List Bytes) (last : Bytes)
    (hv : st.Valid rooted) (hn : st.names = init ++ [last]) :
    st.dotdot rooted < (st.render rooted).length
    ∧ (st.render rooted).take
        (backtrack (st.render rooted) (st.dotdot rooted) ((st.render rooted).length - 1))
      = Stack.render rooted ⟨st.ups, init⟩ := by
  obtain ⟨ups, names⟩ := st
  simp only at hn
  subst hn
  have hlast : isName last := hv.2 last (by simp)
  have hlast1 : ∀ c ∈ last, c ≠ '/' := fun c hc h => hlast.2.1 (h ▸ hc)
  have hpos : 0 < last.length := List.length_pos.2 hlast.1
  have hd : Stack.dotdot rooted ⟨ups, init ++ [last]⟩ = Stack.dotdot rooted ⟨ups, init⟩ := rfl
  have hle := dotdot_le_render rooted ⟨ups, init⟩
  by_cases h : Stack.elems ⟨ups, init⟩ = []
  · have h0 : Stack.elems ⟨ups, []⟩ = [] := by
      simp only [Stack.elems, List.append_eq_nil] at h ⊢
      simp [h.1]
    have hr : Stack.render rooted ⟨ups, init ++ [last]⟩
        = Stack.render rooted ⟨ups, init⟩ ++ last := by
      simp only [Stack.render, elems_snoc, h, stringsJoin, List.nil_append, List.append_nil]
    have hdd : Stack.dotdot rooted ⟨ups, init⟩ = (Stack.render rooted ⟨ups, init⟩).length := by
      simp only [Stack.dotdot, Stack.render, h, h0]
    rw [hd, hr, hdd]
    have e : (Stack.render rooted ⟨ups, init⟩ ++ last).length - 1
        = (Stack.render rooted ⟨ups, init⟩).length + (last.length - 1) := by
      simp only [List.length_append]; omega
    rw [e, backtrack_stop _ last hlast1 _ (by omega)]
    simp only [List.length_append, List.take_left']
    exact ⟨by omega, trivial⟩
  · have hr : Stack.render rooted ⟨ups, init ++ [last]⟩
        = Stack.render rooted ⟨ups, init⟩ ++ '/' :: last := by
      simp only [Stack.render, elems_snoc, stringsJoin_snoc _ _ _ h, List.append_assoc,
        List.singleton_append]
    rw [hd, hr]
    have e : (Stack.render rooted ⟨ups, init⟩ ++ '/' :: last).length - 1
        = (Stack.render rooted ⟨ups, init⟩).length + last.length := by
      simp only [List.length_append, List.length_cons]; omega
    rw [e, backtrack_sep _ last _ hlast1 hle _ (Nat.le_refl _)]
    simp only [List.length_append, List.length_cons, List.take_left']
    exact ⟨by omega, trivial⟩

theorem render_no_names (rooted : Bool) (st : Stack) (hn : st.names = []) :
    ¬ st.dotdot rooted < (st.render rooted).length := by
  obtain ⟨ups, names⟩ := st
  simp only at hn
  subst hn
  simp [Stack.dotdot]

theorem render_push_up (st : Stack) (hn : st.names = []) :
    (if 0 < (st.render false).length then st.render false ++ ['/'] else st.render false)
        ++ ['.', '.'] = Stack.render false ⟨st.ups + 1, []⟩ := by
  obtain ⟨ups, names⟩ := st
  simp only at hn
  subst hn
  have he : Stack.elems ⟨ups + 1, []⟩ = Stack.elems ⟨ups, []⟩ ++ [['.', '.']] := by
    simp [Stack.elems, List.replicate_succ']
  by_cases h : ups = 0
  · subst h
    simp [Stack.render, Stack.elems, stringsJoin]
  · have hne : Stack.elems ⟨ups, []⟩ ≠ [] := by
      simp [Stack.elems, h]
    have hj : stringsJoin ['/'] (Stack.elems ⟨ups, []⟩) ≠ [] :=
      stringsJoin_ne_nil _ _ hne (by
        intro e he
        simp only [Stack.elems, List.append_nil, List.mem_replicate] at he
        rw [he.2]; decide)
    have hpos : 0 < (Stack.render false ⟨ups, []⟩).length := by
      simp only [Stack.render, Bool.false_eq_true, if_false, List.nil_append]
      exact List.length_pos.2 hj
    rw [if_pos hpos]
    simp only [Stack.render, he, stringsJoin_snoc _ _ _ hne, Bool.false_eq_true, if_false,
      List.nil_append]

theorem push_valid (rooted : Bool) (st : Stack) (e : Bytes) (hv : st.Valid rooted)
    (he : '/' ∉ e) : (Stack.push rooted st e).Valid rooted := by
  unfold Stack.push
  split
  · exact hv
  · rename_i h1
    split
    · split
      · exact ⟨hv.1, fun x hx => hv.2 x (List.mem_of_mem_dropLast hx)⟩
      · split
        · exact hv
        · rename_i hr
          refine ⟨fun h => absurd h hr, ?_⟩
          intro x hx
          simp at hx
    · rename_i h2
      refine ⟨hv.1, ?_⟩
      intro x hx
      rcases List.mem_append.1 hx with hx | hx
      · exact hv.2 x hx
      · simp only [List.mem_singleton] at hx
        subst hx
        exact ⟨fun h => h1 (Or.inl h), he, fun h => h1 (Or.inr h), h2⟩

/-! ## Paths: the main loop of `Clean`, element by element -/

theorem cleanLoop_nil (rooted : Bool) (fuel : Nat) (out : Bytes) (dd : Nat) :
    cleanLoop rooted fuel [] out dd = out := by
  cases fuel <;> rfl

theorem takeWhile_eq_nil (rest : Bytes) (h : rest = [] ∨ rest.head? = some '/') :
    rest.takeWhile (· ≠ '/') = [] ∧ rest.dropWhile (· ≠ '/') = rest := by
  cases rest with
  | nil => exact ⟨rfl, rfl⟩
  | cons d r =>
    have hd : d = '/' := by simpa using h
    subst hd
    simp

theorem takeWhile_eq_nil_iff (rest : Bytes) :
    rest.takeWhile (· ≠ '/') = [] ↔ (rest = [] ∨ rest.head? = some '/') := by
  constructor
  · intro h
    cases rest with
    | nil => exact Or.inl rfl
    | cons d r =>
      by_cases hd : d = '/'
      · exact Or.inr (by simp [hd])
      · simp [hd] at h
  · intro h; exact (takeWhile_eq_nil rest h).1

theorem cleanLoop_step (rooted : Bool) (fuel : Nat) (c : Char) (rest : Bytes) (st : Stack)
    (hv : st.Valid rooted) (hc : c ≠ '/') :
    cleanLoop rooted (fuel + 1) (c :: rest) (st.render rooted) (st.dotdot rooted)
      = cleanLoop rooted fuel ((c :: rest).dropWhile (· ≠ '/'))
          ((st.push rooted ((c :: rest).takeWhile (· ≠ '/'))).render rooted)
          ((st.push rooted ((c :: rest).takeWhile (· ≠ '/'))).dotdot rooted) := by
  have htw : (c :: rest).takeWhile (· ≠ '/') = c :: rest.takeWhile (· ≠ '/') := by
    simp [hc]
  have hdw : (c :: rest).dropWhile (· ≠ '/') = rest.dropWhile (· ≠ '/') := by
    simp [hc]
  rw [cleanLoop]
  simp only [hc, if_false]
  by_cases h2 : c = '.' ∧ (rest = [] ∨ rest.head? = some '/')
  · -- the element is `.`
    obtain ⟨rfl, hrest⟩ := h2
    obtain ⟨ht, hd⟩ := takeWhile_eq_nil rest hrest
    have hp : st.push rooted ['.'] = st := by simp [Stack.push]
    rw [if_pos ⟨rfl, hrest⟩, htw, hdw, ht, hd, hp]
  · rw [if_neg h2]
    by_cases h3 : c = '.' ∧ rest.head? = some '.'
        ∧ (rest.tail = [] ∨ rest.tail.head? = some '/')
    · -- the element is `..`
      rw [if_pos h3]
      obtain ⟨rfl, hh, ht⟩ := h3
      cases rest with
      | nil => simp at hh
      | cons d t =>
        have hd : d = '.' := by simpa using hh
        subst hd
        simp only [List.tail_cons] at ht ⊢
        obtain ⟨ht1, ht2⟩ := takeWhile_eq_nil t ht
        have hne : ('.' : Char) ≠ '/' := by decide
        have htw2 : ('.' :: '.' :: t).takeWhile (· ≠ '/') = ['.', '.'] := by
          rw [List.takeWhile_cons_of_pos (by decide), List.takeWhile_cons_of_pos (by decide),
            ht1]
        have hdw2 : ('.' :: '.' :: t).dropWhile (· ≠ '/') = t := by
          rw [List.dropWhile_cons_of_pos (by decide), List.dropWhile_cons_of_pos (by decide),
            ht2]
        rw [htw2, hdw2]
        by_cases hn : st.names = []
        · rw [if_neg (render_no_names rooted st hn)]
          cases rooted with
          | true =>
            have hp : st.push true ['.', '.'] = st := by simp [Stack.push, hn]
            simp only [hp]
            rfl
          | false =>
            have hp : st.push false ['.', '.'] = ⟨st.ups + 1, []⟩ := by
              simp [Stack.push, hn]
            have hr := render_push_up st hn
            simp only [if_true, hp]
            rw [hr]
            rfl
        · obtain ⟨init, last, hil⟩ : ∃ init last, st.names = init ++ [last] :=
            ⟨st.names.dropLast, st.names.getLast hn, (List.dropLast_append_getLast hn).symm⟩
          obtain ⟨hlt, htake⟩ := render_pop rooted st init last hv hil
          have hp : st.push rooted ['.', '.'] = ⟨st.ups, init⟩ := by
            simp [Stack.push, hil]
          rw [if_pos hlt, htake, hp]
          rfl
    · -- the element is a name
      rw [if_neg h3]
      have hname1 : (c :: rest).takeWhile (· ≠ '/') ≠ ['.'] := by
        rw [htw]
        intro h
        simp only [List.cons.injEq] at h
        exact h2 ⟨h.1, (takeWhile_eq_nil_iff rest).1 h.2⟩
      have hname2 : (c :: rest).takeWhile (· ≠ '/') ≠ ['.', '.'] := by
        rw [htw]
        intro h
        simp only [List.cons.injEq] at h
        apply h3
        refine ⟨h.1, ?_⟩
        cases rest with
        | nil => simp at h
        | cons d t =>
          by_cases hd : d = '/'
          · simp [hd] at h
          · simp only [ne_eq, hd, not_false_eq_true, decide_True, List.takeWhile_cons_of_pos,
              List.cons.injEq] at h
            exact ⟨by simp [h.2.1], (takeWhile_eq_nil_iff t).1 h.2.2⟩
      have hp : st.push rooted ((c :: rest).takeWhile (· ≠ '/'))
          = ⟨st.ups, st.names ++ [(c :: rest).takeWhile (· ≠ '/')]⟩ := by
        have h0 : (c :: rest).takeWhile (· ≠ '/') ≠ [] := by rw [htw]; simp
        unfold Stack.push
        rw [if_neg (fun h => h.elim h0 hname1), if_neg hname2]
      rw [hp, render_push_name rooted st _ hv]
      rfl

theorem cleanLoop_eq (rooted : Bool) :
    ∀ (fuel : Nat) (path : Bytes) (st : Stack), st.Valid rooted → path.length ≤ fuel →
      cleanLoop rooted fuel path (st.render rooted) (st.dotdot rooted)
        = ((elements path).foldl (Stack.push rooted) st).render rooted := by
  intro fuel
  induction fuel with
  | zero =>
    intro path st _ h
    have : path = [] := List.length_eq_zero.1 (Nat.le_zero.1 h)
    subst this
    simp [cleanLoop, elements, push_nil]
  | succ fuel ih =>
    intro path st hv h
    cases path with
    | nil => simp [cleanLoop, elements, push_nil]
    | cons c rest =>
      simp only [List.length_cons] at h
      by_cases hc : c = '/'
      · subst hc
        rw [cleanLoop]
        simp only [if_true]
        rw [ih rest st hv (by omega), elements_cons_sep]
        simp [push_nil]
      · rw [cleanLoop_step rooted fuel c rest st hv hc, foldl_push_elements rooted st (c :: rest)]
        have hmem : '/' ∉ (c :: rest).takeWhile (· ≠ '/') := by
          intro hm
          have := List.mem_takeWhile_imp hm
          simp at this
        have hlen : ((c :: rest).dropWhile (· ≠ '/')).length ≤ fuel := by
          have h1 : (c :: rest).dropWhile (· ≠ '/') = rest.dropWhile (· ≠ '/') := by
            simp [hc]
          rw [h1]
          have := (List.dropWhile_suffix (fun x => decide (x ≠ '/')) (l := rest)).length_le
          omega
        exact ih _ _ (push_valid rooted st _ hv hmem) hlen

/-! ## Paths: `Clean` and `Join` -/

theorem valid_empty (rooted : Bool) : Stack.Valid rooted ⟨0, []⟩ :=
  ⟨fun _ => rfl, fun e he => by simp at he⟩

theorem elements_no_sep (s : Bytes) : ∀ e ∈ elements s, '/' ∉ e := by
  induction s with
  | nil => intro e he; simp [elements] at he; subst he; simp
  | cons c s ih =>
    intro e he
    by_cases hc : c = '/'
    · subst hc
      rw [elements_cons_sep] at he
      rcases List.mem_cons.1 he with rfl | he
      · simp
      · exact ih e he
    · obtain ⟨e0, es, h0⟩ := List.exists_cons_of_ne_nil (elements_ne_nil s)
      rw [elements_cons_of_ne c s e0 es hc h0] at he
      rcases List.mem_cons.1 he with rfl | he
      · intro hm
        rcases List.mem_cons.1 hm with h | h
        · exact hc h.symm
        · exact ih e0 (by rw [h0]; simp) h
      · exact ih e (by rw [h0]; exact List.mem_cons_of_mem _ he)

theorem foldl_push_valid (rooted : Bool) :
    ∀ (es : List Bytes) (st : Stack), st.Valid rooted → (∀ e ∈ es, '/' ∉ e) →
      (es.foldl (Stack.push rooted) st).Valid rooted := by
  intro es
  induction es with
  | nil => intro st hv _; exact hv
  | cons e es ih =>
    intro st hv h
    exact ih _ (push_valid rooted st e hv (h e (by simp)))
      (fun x hx => h x (List.mem_cons_of_mem _ hx))

theorem normalize_valid (rooted : Bool) (path : Bytes) : (normalize rooted path).Valid rooted :=
  foldl_push_valid rooted _ _ (valid_empty rooted) (elements_no_sep path)

theorem orDot_ne_nil (out : Bytes) : orDot out ≠ [] := by
  unfold orDot
  split
  · simp
  · assumption

theorem Clean_eq (path : Bytes) (h : path ≠ []) :
    Clean path = orDot ((normalize (decide (path.head? = some '/')) path).render
      (decide (path.head? = some '/'))) := by
  cases path with
  | nil => exact absurd rfl h
  | cons c rest =>
    have hfuel : rest.length ≤ (c :: rest).length := by simp
    unfold Clean
    rw [if_neg h]
    by_cases hc : c = '/'
    · subst hc
      have hr : decide (('/' :: rest).head? = some '/') = true := by simp
      simp only [hr, if_true, List.tail_cons]
      have := cleanLoop_eq true ('/' :: rest).length rest ⟨0, []⟩ (valid_empty true) hfuel
      have e1 : Stack.render true ⟨0, []⟩ = ['/'] := rfl
      have e2 : Stack.dotdot true ⟨0, []⟩ = 1 := rfl
      rw [e1, e2] at this
      rw [this]
      simp only [normalize, elements_cons_sep, List.foldl_cons, push_nil]
      rfl
    · have hr : decide ((c :: rest).head? = some '/') = false := by simp [hc]
      simp only [hr, Bool.false_eq_true, if_false]
      have := cleanLoop_eq false (c :: rest).length (c :: rest) ⟨0, []⟩ (valid_empty false)
        (Nat.le_refl _)
      have e1 : Stack.render false ⟨0, []⟩ = [] := rfl
      have e2 : Stack.dotdot false ⟨0, []⟩ = 0 := rfl
      rw [e1, e2] at this
      rw [this]
      rfl

theorem Clean_ne_nil (path : Bytes) : Clean path ≠ [] := by
  by_cases h : path = []
  · subst h; simp [Clean]
  · rw [Clean_eq path h]; exact orDot_ne_nil _

theorem foldl_push_ups :
    ∀ (n j : Nat), (List.replicate n ['.', '.']).foldl (Stack.push false) ⟨j, []⟩
      = ⟨j + n, []⟩ := by
  intro n
  induction n with
  | zero => intro j; rfl
  | succ n ih =>
    intro j
    have hp : Stack.push false ⟨j, []⟩ ['.', '.'] = ⟨j + 1, []⟩ := by
      simp [Stack.push]
    rw [List.replicate_succ, List.foldl_cons, hp, ih]
    congr 1
    omega

theorem foldl_push_names (rooted : Bool) (u : Nat) :
    ∀ (names acc : List Bytes), (∀ e ∈ names, isName e) →
      names.foldl (Stack.push rooted) ⟨u, acc⟩ = ⟨u, acc ++ names⟩ := by
  intro names
  induction names with
  | nil => intro acc _; simp
  | cons e names ih =>
    intro acc h
    have he := h e (by simp)
    have hp : Stack.push rooted ⟨u, acc⟩ e = ⟨u, acc ++ [e]⟩ := by
      unfold Stack.push
      rw [if_neg (fun h => h.elim he.1 he.2.2.1), if_neg he.2.2.2]
    rw [List.foldl_cons, hp, ih _ (fun x hx => h x (List.mem_cons_of_mem _ hx))]
    simp

theorem foldl_push_elems (rooted : Bool) (st : Stack) (hv : st.Valid rooted) :
    st.elems.foldl (Stack.push rooted) ⟨0, []⟩ = st := by
  obtain ⟨ups, names⟩ := st
  simp only [Stack.elems, List.foldl_append]
  cases rooted with
  | true =>
    have h0 : ups = 0 := hv.1 rfl
    subst h0
    simpa using foldl_push_names true 0 names [] hv.2
  | false =>
    rw [foldl_push_ups ups 0]
    simpa using foldl_push_names false ups names [] hv.2

theorem stringsJoin_cons_prefix (sep e : Bytes) (l : List Bytes) :
    ∃ r, stringsJoin sep (e :: l) = e ++ r := by
  cases l with
  | nil => exact ⟨[], by simp [stringsJoin]⟩
  | cons f l => exact ⟨sep ++ stringsJoin sep (f :: l), by simp [stringsJoin]⟩

theorem normalize_render (rooted : Bool) (st : Stack) (hv : st.Valid rooted) :
    decide ((orDot (st.render rooted)).head? = some '/') = rooted
    ∧ normalize rooted (orDot (st.render rooted)) = st := by
  by_cases h : st.elems = []
  · have hst : st = ⟨0, []⟩ := by
      obtain ⟨ups, names⟩ := st
      simp only [Stack.elems, List.append_eq_nil, List.replicate_eq_nil_iff] at h
      simp [h.1, h.2]
    subst hst
    cases rooted <;> exact ⟨by decide, by decide⟩
  · have hmem := elems_mem rooted st hv
    have hj : stringsJoin ['/'] st.elems ≠ [] :=
      stringsJoin_ne_nil _ _ h (fun e he => (hmem e he).1)
    have hne : st.render rooted ≠ [] := by
      simp only [Stack.render, ne_eq, List.append_eq_nil, not_and]
      exact fun _ => hj
    have hor : orDot (st.render rooted) = st.render rooted := by
      simp [orDot, hne]
    rw [hor]
    have hel : elements (stringsJoin ['/'] st.elems) = st.elems :=
      elements_stringsJoin _ h (fun e he => (hmem e he).2)
    cases rooted with
    | true =>
      refine ⟨by simp [Stack.render], ?_⟩
      simp only [normalize, Stack.render, if_true, List.singleton_append, elements_cons_sep,
        List.foldl_cons, push_nil, hel]
      exact foldl_push_elems true st hv
    | false =>
      constructor
      · obtain ⟨e, l, hl⟩ := List.exists_cons_of_ne_nil h
        obtain ⟨r, hr⟩ := stringsJoin_cons_prefix ['/'] e l
        have he := hmem e (by rw [hl]; simp)
        obtain ⟨c, t, hct⟩ := List.exists_cons_of_ne_nil he.1
        have hc : c ≠ '/' := fun hc => he.2 (by rw [hct, hc]; simp)
        subst hct
        simp only [Stack.render, Bool.false_eq_true, if_false, List.nil_append, hl, hr]
        simp [hc]
      · simp only [normalize, Stack.render, Bool.false_eq_true, if_false, List.nil_append, hel]
        exact foldl_push_elems false st hv

theorem head_append (a b : Bytes) (h : a ≠ []) : (a ++ b).head? = a.head? := by
  cases a with
  | nil => exact absurd rfl h
  | cons c a => rfl

theorem normalize_append (rooted : Bool) (a b : Bytes) :
    normalize rooted (a ++ '/' :: b)
      = (elements b).foldl (Stack.push rooted) (normalize rooted a) := by
  simp [normalize, elements_append, List.foldl_append]

theorem Clean_Clean_append (x y : Bytes) (hx : x ≠ []) :
    Clean (Clean x ++ '/' :: y) = Clean (x ++ '/' :: y) := by
  have hv := normalize_valid (decide (x.head? = some '/')) x
  obtain ⟨h1, h2⟩ := normalize_render _ _ hv
  rw [← Clean_eq x hx] at h1 h2
  rw [Clean_eq (Clean x ++ '/' :: y) (by simp [Clean_ne_nil]),
    Clean_eq (x ++ '/' :: y) (by simp [hx]),
    head_append _ _ (Clean_ne_nil x), head_append _ _ hx, h1,
    normalize_append, normalize_append, h2]

theorem Join_Join (o p d n : Bytes) : Join [Join [o, p], d, n] = Join [o, p, d, n] := by
  by_cases ho : o = []
  · subst ho
    by_cases hp : p = []
    · subst hp
      simp [Join]
    · have h1 : Join [[], p] = Clean p := by simp [Join, hp, stringsJoin]
      have h2 : Join [[], p, d, n] = Clean (p ++ '/' :: (d ++ '/' :: n)) := by
        simp [Join, hp, stringsJoin]
      rw [h1, h2, ← Clean_Clean_append p _ hp]
      simp [Join, Clean_ne_nil, stringsJoin]
  · have h1 : Join [o, p] = Clean (o ++ '/' :: p) := by simp [Join, ho, stringsJoin]
    have h2 : Join [o, p, d, n] = Clean ((o ++ '/' :: p) ++ '/' :: (d ++ '/' :: n)) := by
      simp [Join, ho, stringsJoin]
    rw [h1, h2, ← Clean_Clean_append (o ++ '/' :: p) _ (by simp)]
    simp [Join, Clean_ne_nil, stringsJoin]

/-- C9: for every output directory, project name and entry, the output path
that the driver computes in two steps, joining first the output directory
and the project name, is the specification's single join of the four
components, and the template path is the join of the template directory,
the entry's directory and the template name.  The components `outputDir`,
`site`, `pages`, `index.tmpl` give `outputDir/site/pages/index`. -/
theorem resolved_paths (templateDir outputDir projectName : Bytes) (project : Project) :
    outputFile (Join [outputDir, projectName]) project
      = outputPath outputDir projectName project.Dir project.Template
    ∧ templateFile templateDir project
      = templateSourcePath templateDir project.Dir project.Template
    ∧ outputFile (Join ["outputDir".toList, "site".toList])
        ⟨"pages".toList, "index.tmpl".toList, []⟩ = "outputDir/site/pages/index".toList := by
  refine ⟨?_, rfl, by decide⟩
  exact Join_Join outputDir projectName project.Dir _

theorem writeFile_read (os : Faults) (fs fs2 : FS) (name data : Bytes)
    (h : WriteFile os fs name data = some fs2) : ReadFile fs2 name = some data := by
  unfold WriteFile at h
  split at h
  · simp at h
  · simp only [Option.some.injEq] at h
    subst h
    simp [ReadFile, withFile]

/-- C2: for a configuration with one project `p` holding one entry whose
template path can be read with content `c`, and for which creating the
directory of the output path and writing the output file succeed, the run
ends without a fatal error and in the resulting file system the output path
`join(outputDir, p, dir, template without a trailing .tmpl)` names a file
that holds exactly `applySubstitutions c m`. -/
theorem single_entry_run (os : Faults) (templateDir outputDir p : Bytes) (e : Project)
    (c : Bytes) (fs : FS)
    (hread : ReadFile fs (templateSourcePath templateDir e.Dir e.Template) = some c)
    (hmkdir : (MkdirAll os fs (Dir (outputPath outputDir p e.Dir e.Template))).isSome = true)
    (hwrite : ∀ fs1, MkdirAll os fs (Dir (outputPath outputDir p e.Dir e.Template)) = some fs1 →
      (WriteFile os fs1 (outputPath outputDir p e.Dir e.Template)
        (applySubstitutions c e.Substitution)).isSome = true) :
    (main os templateDir outputDir [(p, [e])] fs).fatal = none
    ∧ ReadFile (main os templateDir outputDir [(p, [e])] fs).fs
        (outputPath outputDir p e.Dir e.Template)
      = some (applySubstitutions c e.Substitution) := by
  have hout : outputFile (Join [outputDir, p]) e = outputPath outputDir p e.Dir e.Template :=
    Join_Join outputDir p e.Dir _
  have hsrc : templateFile templateDir e = templateSourcePath templateDir e.Dir e.Template := rfl
  obtain ⟨fs1, h1⟩ := Option.isSome_iff_exists.1 hmkdir
  obtain ⟨fs2, h2⟩ := Option.isSome_iff_exists.1 (hwrite fs1 h1)
  have hstep : processTemplate os templateDir (Join [outputDir, p]) e fs = ⟨fs2, none⟩ := by
    simp only [processTemplate, hsrc, hread, hout, h1, h2]
  have hrun : main os templateDir outputDir [(p, [e])] fs = ⟨fs2, none⟩ := by
    simp only [main, processProjects, hstep]
  rw [hrun]
  exact ⟨rfl, writeFile_read os fs1 fs2 _ _ h2⟩

/-- An instance of `single_entry_run`, the scenario of the specification:
project `site`, directory `pages`, template `index.tmpl` with content
`<h1>{{ title }}</h1>` and the pair `title ↦ Home` give the file
`outputDir/site/pages/index` with content `<h1>Home</h1>`. -/
theorem single_entry_run_witness :
    ((main noFaults "templateDir".toList "outputDir".toList
        [("site".toList, [⟨"pages".toList, "index.tmpl".toList,
          [("title".toList, "Home".toList)]⟩])]
        (fsOf [("templateDir/pages/index.tmpl".toList,
          "<h1>\x7b\x7b title \x7d\x7d</h1>".toList)])).fatal = none
      ∧ ReadFile (main noFaults "templateDir".toList "outputDir".toList
        [("site".toList, [⟨"pages".toList, "index.tmpl".toList,
          [("title".toList, "Home".toList)]⟩])]
        (fsOf [("templateDir/pages/index.tmpl".toList,
          "<h1>\x7b\x7b title \x7d\x7d</h1>".toList)])).fs
          (outputPath "outputDir".toList "site".toList "pages".toList "index.tmpl".toList)
        = some (applySubstitutions "<h1>\x7b\x7b title \x7d\x7d</h1>".toList
            [("title".toList, "Home".toList)]))
    ∧ outputPath "outputDir".toList "site".toList "pages".toList "index.tmpl".toList
        = "outputDir/site/pages/index".toList
    ∧ applySubstitutions "<h1>\x7b\x7b title \x7d\x7d</h1>".toList
        [("title".toList, "Home".toList)] = "<h1>Home</h1>".toList :=
  ⟨single_entry_run noFaults "templateDir".toList "outputDir".toList "site".toList
      ⟨"pages".toList, "index.tmpl".toList, [("title".toList, "Home".toList)]⟩
      "<h1>\x7b\x7b title \x7d\x7d</h1>".toList
      (fsOf [("templateDir/pages/index.tmpl".toList,
        "<h1>\x7b\x7b title \x7d\x7d</h1>".toList)])
      (by decide) rfl (fun _ _ => rfl),
    by decide, by decide⟩

/-- An instance of `halt_at_unreadable_template`: the second of three entries
names the template `missing.tmpl`, which does not exist; the run stops there,
in the file system left by the first entry. -/
theorem halt_at_unreadable_template_witness :
    processProjects noFaults "t".toList (Join ["o".toList, "site".toList])
        ([⟨"pages".toList, "index.tmpl".toList, [("title".toList, "Home".toList)]⟩]
          ++ ⟨"pages".toList, "missing.tmpl".toList, []⟩
            :: [⟨"pages".toList, "about.tmpl".toList, []⟩])
        (fsOf [("t/pages/index.tmpl".toList, "\x7b\x7b title \x7d\x7d".toList),
               ("t/pages/about.tmpl".toList, "about".toList)])
      = ⟨(processProjects noFaults "t".toList (Join ["o".toList, "site".toList])
            [⟨"pages".toList, "index.tmpl".toList, [("title".toList, "Home".toList)]⟩]
            (fsOf [("t/pages/index.tmpl".toList, "\x7b\x7b title \x7d\x7d".toList),
                   ("t/pages/about.tmpl".toList, "about".toList)])).fs,
          some (Error.readTemplate
            (templateFile "t".toList ⟨"pages".toList, "missing.tmpl".toList, []⟩))⟩
    ∧ main noFaults "t".toList "o".toList
        (("site".toList,
          [⟨"pages".toList, "index.tmpl".toList, [("title".toList, "Home".toList)]⟩]
          ++ ⟨"pages".toList, "missing.tmpl".toList, []⟩
            :: [⟨"pages".toList, "about.tmpl".toList, []⟩]) :: [])
        (fsOf [("t/pages/index.tmpl".toList, "\x7b\x7b title \x7d\x7d".toList),
               ("t/pages/about.tmpl".toList, "about".toList)])
      = ⟨(processProjects noFaults "t".toList (Join ["o".toList, "site".toList])
            [⟨"pages".toList, "index.tmpl".toList, [("title".toList, "Home".toList)]⟩]
            (fsOf [("t/pages/index.tmpl".toList, "\x7b\x7b title \x7d\x7d".toList),
                   ("t/pages/about.tmpl".toList, "about".toList)])).fs,
          some (Error.readTemplate
            (templateFile "t".toList ⟨"pages".toList, "missing.tmpl".toList, []⟩))⟩ :=
  halt_at_unreadable_template noFaults "t".toList "o".toList "site".toList _ _ _ [] _ _
    rfl (by decide)

/-- An instance of `entry_order_irrelevant`: two entries with the templates
`a.tmpl` and `b.tmpl`, processed in both orders. -/
theorem entry_order_irrelevant_witness :
    (processProjects noFaults "t".toList "o/p".toList
        [⟨"d".toList, "a.tmpl".toList, [("x".toList, "1".toList)]⟩,
         ⟨"d".toList, "b.tmpl".toList, [("x".toList, "2".toList)]⟩]
        (fsOf [("t/d/a.tmpl".toList, "a=\x7b\x7b x \x7d\x7d".toList),
               ("t/d/b.tmpl".toList, "b=\x7b\x7b x \x7d\x7d".toList)])).fs
      = (processProjects noFaults "t".toList "o/p".toList
        [⟨"d".toList, "b.tmpl".toList, [("x".toList, "2".toList)]⟩,
         ⟨"d".toList, "a.tmpl".toList, [("x".toList, "1".toList)]⟩]
        (fsOf [("t/d/a.tmpl".toList, "a=\x7b\x7b x \x7d\x7d".toList),
               ("t/d/b.tmpl".toList, "b=\x7b\x7b x \x7d\x7d".toList)])).fs :=
  entry_order_irrelevant noFaults "t".toList "o/p".toList
    [⟨"d".toList, "a.tmpl".toList, [("x".toList, "1".toList)]⟩,
     ⟨"d".toList, "b.tmpl".toList, [("x".toList, "2".toList)]⟩]
    [⟨"d".toList, "b.tmpl".toList, [("x".toList, "2".toList)]⟩,
     ⟨"d".toList, "a.tmpl".toList, [("x".toList, "1".toList)]⟩]
    (fsOf [("t/d/a.tmpl".toList, "a=\x7b\x7b x \x7d\x7d".toList),
           ("t/d/b.tmpl".toList, "b=\x7b\x7b x \x7d\x7d".toList)]) _ _
    (List.Perm.swap _ _ _) (by decide) (by decide) rfl rfl

/-! ## Checks of the embedding on concrete inputs -/

/-- The embedding of `filepath.Clean` on inputs that exercise every branch of
its loop: repeated separators, `.` elements, inner `..` elements, `..` at the
start of a rooted and of a relative path, and the empty result. -/
theorem Clean_examples :
    Clean "abc//def//ghi".toList = "abc/def/ghi".toList
    ∧ Clean "abc/./def".toList = "abc/def".toList
    ∧ Clean "abc/def/ghi/../jkl".toList = "abc/def/jkl".toList
    ∧ Clean "abc/def/../../..".toList = "..".toList
    ∧ Clean "/abc/def/../../..".toList = "/".toList
    ∧ Clean "../../abc/../../def".toList = "../../../def".toList
    ∧ Clean "/../abc/".toList = "/abc".toList
    ∧ Clean "abc/..".toList = ".".toList
    ∧ Clean "".toList = ".".toList
    ∧ Clean "//".toList = "/".toList := by
  decide

/-- The embedding of `filepath.Join` and `filepath.Dir` on concrete inputs:
empty elements are ignored, the result is cleaned, and `Dir` drops the last
element. -/
theorem Join_Dir_examples :
    Join ["a".toList, "".toList, "b".toList] = "a/b".toList
    ∧ Join ["".toList, "".toList] = "".toList
    ∧ Join ["".toList, "a".toList] = "a".toList
    ∧ Join ["a/".toList, "../b".toList] = "b".toList
    ∧ Dir "outputDir/site/pages/index".toList = "outputDir/site/pages".toList
    ∧ Dir "index".toList = ".".toList
    ∧ Dir "/index".toList = "/".toList := by
  decide

/-- The embedding of `bytes.Replace` with a limit: the first `n` instances
are replaced, all of them when `n` is negative, none when `n` is zero. -/
theorem Replace_examples :
    Replace "a-a-a".toList "a".toList "bb".toList (-1) = "bb-bb-bb".toList
    ∧ Replace "a-a-a".toList "a".toList "bb".toList 2 = "bb-bb-a".toList
    ∧ Replace "a-a-a".toList "a".toList "bb".toList 0 = "a-a-a".toList
    ∧ Replace "aaaa".toList "aa".toList "b".toList (-1) = "bb".toList
    ∧ Replace "aaa".toList "aa".toList "b".toList (-1) = "ba".toList := by
  decide

/-- The embedding of `bytes.Replace` with an empty `old`: the replacement is
inserted before the first byte and after each UTF-8 code point, a two-byte
encoding (`0xC3 0xA9`) kept whole and a byte that begins no encoding (`0xFF`)
counted as one code point. -/
theorem Replace_empty_examples :
    Replace ['a', Char.ofNat 0xC3, Char.ofNat 0xA9] [] "-".toList (-1)
      = ['-', 'a', '-', Char.ofNat 0xC3, Char.ofNat 0xA9, '-']
    ∧ Replace [Char.ofNat 0xFF, 'a'] [] "-".toList (-1)
      = ['-', Char.ofNat 0xFF, '-', 'a', '-']
    ∧ Count ['a', Char.ofNat 0xC3, Char.ofNat 0xA9] [] = 3
    ∧ decodeRuneWidth [Char.ofNat 0xE2, Char.ofNat 0x82, Char.ofNat 0xAC, 'x'] = 3
    ∧ decodeRuneWidth [Char.ofNat 0xF0, Char.ofNat 0x9F, Char.ofNat 0x98, Char.ofNat 0x80] = 4
    ∧ decodeRuneWidth [Char.ofNat 0xE2, Char.ofNat 0x82] = 1
    ∧ decodeRuneWidth [Char.ofNat 0xC0, Char.ofNat 0x80] = 1 := by
  decide

/-- Two path names with different bytes that name one file: in a working
directory named `root`, with no output directory given, the entries with the
directories `d` and `../../root/p/d` of the project `p` have the output paths
`p/d/a` and `../root/p/d/a`.  Both orders run without error, and the file
read under the name `p/d/a` holds what the entry processed last wrote. -/
theorem aliased_output_example :
    outputFile (Join ["".toList, "p".toList])
        ⟨"d".toList, "a.tmpl".toList, [("x".toList, "1".toList)]⟩ = "p/d/a".toList
    ∧ outputFile (Join ["".toList, "p".toList])
        ⟨"../../root/p/d".toList, "a.tmpl".toList, [("x".toList, "2".toList)]⟩
        = "../root/p/d/a".toList
    ∧ (main noFaults "t".toList "".toList
        [("p".toList, [⟨"d".toList, "a.tmpl".toList, [("x".toList, "1".toList)]⟩,
          ⟨"../../root/p/d".toList, "a.tmpl".toList, [("x".toList, "2".toList)]⟩])]
        (fsInRoot [("t/d/a.tmpl".toList, "\x7b\x7b x \x7d\x7d".toList),
          ("p/d/a.tmpl".toList, "\x7b\x7b x \x7d\x7d".toList)])).fatal = none
    ∧ (main noFaults "t".toList "".toList
        [("p".toList, [⟨"../../root/p/d".toList, "a.tmpl".toList, [("x".toList, "2".toList)]⟩,
          ⟨"d".toList, "a.tmpl".toList, [("x".toList, "1".toList)]⟩])]
        (fsInRoot [("t/d/a.tmpl".toList, "\x7b\x7b x \x7d\x7d".toList),
          ("p/d/a.tmpl".toList, "\x7b\x7b x \x7d\x7d".toList)])).fatal = none
    ∧ ReadFile (main noFaults "t".toList "".toList
        [("p".toList, [⟨"d".toList, "a.tmpl".toList, [("x".toList, "1".toList)]⟩,
          ⟨"../../root/p/d".toList, "a.tmpl".toList, [("x".toList, "2".toList)]⟩])]
        (fsInRoot [("t/d/a.tmpl".toList, "\x7b\x7b x \x7d\x7d".toList),
          ("p/d/a.tmpl".toList, "\x7b\x7b x \x7d\x7d".toList)])).fs "p/d/a".toList
        = some "2".toList
    ∧ ReadFile (main noFaults "t".toList "".toList
        [("p".toList, [⟨"../../root/p/d".toList, "a.tmpl".toList, [("x".toList, "2".toList)]⟩,
          ⟨"d".toList, "a.tmpl".toList, [("x".toList, "1".toList)]⟩])]
        (fsInRoot [("t/d/a.tmpl".toList, "\x7b\x7b x \x7d\x7d".toList),
          ("p/d/a.tmpl".toList, "\x7b\x7b x \x7d\x7d".toList)])).fs "p/d/a".toList
        = some "1".toList := by
  decide

/-- The result of the main loop of `filepath.Clean` does not depend on the
bound of its iterations once the bound is the length of the path. -/
theorem cleanLoop_fuel (rooted : Bool) (fuel : Nat) (path : Bytes) (st : Stack)
    (hv : st.Valid rooted) (h : path.length ≤ fuel) :
    cleanLoop rooted fuel path (st.render rooted) (st.dotdot rooted)
      = cleanLoop rooted path.length path (st.render rooted) (st.dotdot rooted) := by
  rw [cleanLoop_eq rooted fuel path st hv h,
    cleanLoop_eq rooted path.length path st hv (Nat.le_refl _)]

end Substitute
